import Mathlib

/-!
Verification of the RNS (residue number system) engine of the halo2wrong
repository (`src/rns.rs` and `src/circuit/integer/sub.rs`).

The Rust code is shallowly embedded: native-field elements of the field `N`
are represented as natural numbers below the native modulus `n`, with the
field operations `nadd`, `nmul`, `nsub` reducing modulo `n`; arbitrary
precision `BigUint` values are plain `Nat`; the `Rns` parameter bundle, the
`Integer` limb representation and the operations `decompose`, `compose`,
`construct`, `reduce`, `mul`, `residues`, `invert` and `make_aux` are
translated function by function.  Runtime `assert!` statements are modelled
as separate propositions (`ConstructAsserts`, `Rns.residuesAssert`,
`Rns.reduceQuotientAssert`).  The external foreign-field inversion
(`FieldExt::invert` of the `Wrong` field, provided by halo2) is modelled as
an oracle parameter constrained by `WInvertSpec`.
-/

set_option maxRecDepth 1000000

namespace Halo2wrong

/-- NUMBER_OF_LIMBS from lib.rs. -/
def numberOfLimbs : Nat := 4

/-- NUMBER_OF_LOOKUP_LIMBS from lib.rs. -/
def numberOfLookupLimbs : Nat := 4

/-- Helper for `bigBits`: fuel-driven binary length computation.  The fuel is
always at least the argument, which suffices for termination of the halving
recursion. -/
def bitsAux : Nat → Nat → Nat
  | 0, _ => 0
  | fuel+1, x => if x < 2 then (if x = 0 then 0 else 1) else bitsAux fuel (x / 2) + 1

/-- Number of bits of a `BigUint` as returned by num_bigint's `bits()`:
`0` for `0`, otherwise `floor (log2 x) + 1`. -/
def bigBits (x : Nat) : Nat := bitsAux x x

/-- Native field addition: elements of `N` are naturals below the modulus. -/
def nadd (n x y : Nat) : Nat := (x + y) % n

/-- Native field multiplication. -/
def nmul (n x y : Nat) : Nat := x * y % n

/-- Native field subtraction (`x - y` in the field `N`). -/
def nsub (n x y : Nat) : Nat := (x + (n - y % n)) % n

/-- `decompose` from rns.rs: split `e` into `k` little-endian limbs of
`bitLen` bits each, by masking with `2^bitLen - 1` and shifting right.  Each
limb is converted to a field element of `N` (`big_to_fe`), i.e. reduced
modulo the native modulus `n`. -/
def decompose (n : Nat) : Nat → Nat → Nat → List Nat
  | _, 0, _ => []
  | e, k+1, bitLen => (((1 <<< bitLen) - 1) &&& e) % n :: decompose n (e >>> bitLen) k bitLen

/-- Helper for `compose`: accumulate `limb * 2^(bitLen*i)` starting at
position `i`. -/
def composeAux (bitLen : Nat) : Nat → List Nat → Nat
  | _, [] => 0
  | i, limb :: rest => (limb <<< (bitLen * i)) + composeAux bitLen (i+1) rest

/-- `compose` from rns.rs: `e += limb << (bit_len * i)` over the input limbs. -/
def compose (input : List Nat) (bitLen : Nat) : Nat := composeAux bitLen 0 input

/-- The `Integer` limb representation from rns.rs: an ordered sequence of
native-field limbs together with the limb bit width. -/
structure Integer where
  limbs : List Nat
  bitLenLimb : Nat
deriving DecidableEq

/-- `Integer::value`: compose the limb values. -/
def Integer.value (a : Integer) : Nat := compose a.limbs a.bitLenLimb

/-- `Integer::limb_value` (via `limbs[idx]`). -/
def Integer.limbValue (a : Integer) (idx : Nat) : Nat := a.limbs.getD idx 0

/-- `Integer::from_big`: decompose a big integer into limbs. -/
def Integer.fromBig (n e k bitLenLimb : Nat) : Integer :=
  { limbs := decompose n e k bitLenLimb, bitLenLimb := bitLenLimb }

/-- The `Quotient` enum from rns.rs. -/
inductive Quotient where
  | Short : Nat → Quotient
  | Long : Integer → Quotient
deriving DecidableEq

/-- The `ReductionContext` struct from rns.rs. -/
structure ReductionContext where
  result : Integer
  quotient : Quotient
  t : List Nat
  u0 : Nat
  u1 : Nat
  v0 : Nat
  v1 : Nat
deriving DecidableEq

/-- The `Rns` parameter bundle from rns.rs (all fields as naturals; field
elements of `N` are canonical representatives below the native modulus). -/
structure Rns where
  bitLenLimb : Nat
  bitLenLookup : Nat
  wrongModulus : Nat
  nativeModulus : Nat
  binaryModulus : Nat
  crtModulus : Nat
  rightShifterR : Nat
  rightShifter2r : Nat
  leftShifterR : Nat
  leftShifter2r : Nat
  leftShifter3r : Nat
  baseAux : Integer
  negativeWrongModulusDecomposed : List Nat
  wrongModulusDecomposed : List Nat
  wrongModulusMinusOne : Integer
  wrongModulusInNativeModulus : Nat
  maxReducedLimb : Nat
  maxUnreducedLimb : Nat
  maxRemainder : Nat
  maxOperand : Nat
  maxMulQuotient : Nat
  maxReducibleValue : Nat
  maxWithMaxUnreducedLimbs : Nat
  maxDenseValue : Nat
  maxMostSignificantReducedLimb : Nat
  maxMostSignificantOperandLimb : Nat
  maxMostSignificantUnreducedLimb : Nat
  maxMostSignificantMulQuotientLimb : Nat
  mulV0Overflow : Nat
  mulV1Overflow : Nat
  redV0Overflow : Nat
  redV1Overflow : Nat
  twoLimbMask : Nat
deriving DecidableEq

/-- `binary_modulus = 2^(bit_len_limb * NUMBER_OF_LIMBS)`. -/
def binaryModulus (bitLenLimb : Nat) : Nat := 1 <<< (bitLenLimb * numberOfLimbs)

/-- `crt_modulus = binary_modulus * native_modulus`. -/
def crtModulus (n bitLenLimb : Nat) : Nat := binaryModulus bitLenLimb * n

/-- The inverse of `2` in the native field (`two.invert().unwrap()`); for an
odd modulus `n` this is `(n+1)/2`. -/
def twoInvN (n : Nat) : Nat := (n + 1) / 2

/-- `right_shifter_r = two_inv^bit_len_limb`. -/
def rightShifterR (n bitLenLimb : Nat) : Nat := twoInvN n ^ bitLenLimb % n

/-- `right_shifter_2r = two_inv^(2*bit_len_limb)`. -/
def rightShifter2r (n bitLenLimb : Nat) : Nat := twoInvN n ^ (2 * bitLenLimb) % n

/-- `left_shifter_r = 2^bit_len_limb` as a native field element. -/
def leftShifterR (n bitLenLimb : Nat) : Nat := 2 ^ bitLenLimb % n

/-- `left_shifter_2r = 2^(2*bit_len_limb)` as a native field element. -/
def leftShifter2r (n bitLenLimb : Nat) : Nat := 2 ^ (2 * bitLenLimb) % n

/-- `left_shifter_3r = 2^(3*bit_len_limb)` as a native field element. -/
def leftShifter3r (n bitLenLimb : Nat) : Nat := 2 ^ (3 * bitLenLimb) % n

/-- `negative_wrong_modulus_decomposed = decompose(binary_modulus - wrong_modulus)`. -/
def negativeWrongModulusDecomposed (w n bitLenLimb : Nat) : List Nat :=
  decompose n (binaryModulus bitLenLimb - w) numberOfLimbs bitLenLimb

/-- `wrong_modulus_decomposed = decompose(wrong_modulus)`. -/
def wrongModulusDecomposed (w n bitLenLimb : Nat) : List Nat :=
  decompose n w numberOfLimbs bitLenLimb

/-- `wrong_modulus_minus_one = Integer::from_big(wrong_modulus - 1)`. -/
def wrongModulusMinusOne (w n bitLenLimb : Nat) : Integer :=
  Integer.fromBig n (w - 1) numberOfLimbs bitLenLimb

/-- `two_limb_mask = 2^(bit_len_limb*2) - 1`. -/
def twoLimbMask (bitLenLimb : Nat) : Nat := (1 <<< (bitLenLimb * 2)) - 1

/-- `max_remainder = 2^(wrong_modulus.bits()) - 1`. -/
def maxRemainder (w : Nat) : Nat := (1 <<< bigBits w) - 1

/-- `pre_max_operand_bit_len = crt_modulus.bits() / 2 - 1`. -/
def preMaxOperandBitLen (n bitLenLimb : Nat) : Nat :=
  bigBits (crtModulus n bitLenLimb) / 2 - 1

/-- `pre_max_operand = 2^pre_max_operand_bit_len - 1`. -/
def preMaxOperand (n bitLenLimb : Nat) : Nat :=
  (1 <<< preMaxOperandBitLen n bitLenLimb) - 1

/-- `pre_max_mul_quotient = (crt_modulus - max_remainder) / wrong_modulus`. -/
def preMaxMulQuotient (w n bitLenLimb : Nat) : Nat :=
  (crtModulus n bitLenLimb - maxRemainder w) / w

/-- `max_mul_quotient = 2^(pre_max_mul_quotient.bits() - 1) - 1`. -/
def maxMulQuotient (w n bitLenLimb : Nat) : Nat :=
  (1 <<< (bigBits (preMaxMulQuotient w n bitLenLimb) - 1)) - 1

/-- `max_operand_bit_len = (max_mul_quotient * wrong_modulus + max_remainder).bits() / 2 - 1`. -/
def maxOperandBitLen (w n bitLenLimb : Nat) : Nat :=
  bigBits (maxMulQuotient w n bitLenLimb * w + maxRemainder w) / 2 - 1

/-- `max_operand = 2^max_operand_bit_len - 1`. -/
def maxOperand (w n bitLenLimb : Nat) : Nat :=
  (1 <<< maxOperandBitLen w n bitLenLimb) - 1

/-- `max_reduced_limb = 2^bit_len_limb - 1`. -/
def maxReducedLimb (bitLenLimb : Nat) : Nat := (1 <<< bitLenLimb) - 1

/-- `max_unreduced_limb = 2^(bit_len_limb + bit_len_limb/2) - 1`. -/
def maxUnreducedLimb (bitLenLimb : Nat) : Nat :=
  (1 <<< (bitLenLimb + bitLenLimb / 2)) - 1

/-- `max_most_significant_reduced_limb = max_remainder >> ((NUMBER_OF_LIMBS-1)*bit_len_limb)`. -/
def maxMostSignificantReducedLimb (w bitLenLimb : Nat) : Nat :=
  maxRemainder w >>> ((numberOfLimbs - 1) * bitLenLimb)

/-- `max_most_significant_operand_limb = max_operand >> ((NUMBER_OF_LIMBS-1)*bit_len_limb)`. -/
def maxMostSignificantOperandLimb (w n bitLenLimb : Nat) : Nat :=
  maxOperand w n bitLenLimb >>> ((numberOfLimbs - 1) * bitLenLimb)

/-- `max_most_significant_mul_quotient_limb = max_mul_quotient >> ((NUMBER_OF_LIMBS-1)*bit_len_limb)`. -/
def maxMostSignificantMulQuotientLimb (w n bitLenLimb : Nat) : Nat :=
  maxMulQuotient w n bitLenLimb >>> ((numberOfLimbs - 1) * bitLenLimb)

/-- `max_reducible_value = max_reduction_quotient * wrong_modulus + max_remainder`
with `max_reduction_quotient = max_reduced_limb`. -/
def maxReducibleValue (w bitLenLimb : Nat) : Nat :=
  maxReducedLimb bitLenLimb * w + maxRemainder w

/-- `max_with_max_unreduced_limbs = compose(vec![max_unreduced_limb; 4])`. -/
def maxWithMaxUnreducedLimbs (bitLenLimb : Nat) : Nat :=
  compose (List.replicate 4 (maxUnreducedLimb bitLenLimb)) bitLenLimb

/-- `max_dense_value = compose(vec![max_reduced_limb; 4])`. -/
def maxDenseValue (bitLenLimb : Nat) : Nat :=
  compose (List.replicate 4 (maxReducedLimb bitLenLimb)) bitLenLimb

/-- One pass of the borrow/add adjustment in `calculate_base_aux` at loop
index `i` (`hidx = NUMBER_OF_LIMBS - i - 1`, `lidx = hidx - 1`): if the
lower limb cannot dominate a borrow, decrement the upper limb and add a full
`2^bit_len_limb` (the field constant `r`) to the lower one. -/
def baseAuxStep (bitLenLimb r : Nat) (ba : List Nat) (i : Nat) : List Nat :=
  let hidx := numberOfLimbs - i - 1
  let lidx := hidx - 1
  if bigBits (ba.getD lidx 0) < bitLenLimb + 1 then
    ((ba.set hidx (ba.getD hidx 0 - 1)).set lidx (ba.getD lidx 0 + r))
  else ba

/-- `Rns::calculate_base_aux`: start from `2 * wrong_modulus` decomposed into
limbs and run the most-significant-to-least borrow/add adjustment; the limbs
are finally converted to field elements of `N`. -/
def calculateBaseAux (w n bitLenLimb : Nat) : Integer :=
  let r := 2 ^ bitLenLimb % n
  let wrongDecomposed := decompose n w numberOfLimbs bitLenLimb
  let ba := wrongDecomposed.map (fun limb => limb <<< 1)
  let ba := [0, 1, 2].foldl (baseAuxStep bitLenLimb r) ba
  { limbs := ba.map (fun limb => limb % n), bitLenLimb := bitLenLimb }

/-- The `t` terms of the worst-case multiplication emulation in
`Rns::construct` (plain big-integer arithmetic, `2*NUMBER_OF_LIMBS - 1`
entries, with `a = q = [max_reduced, max_reduced, max_reduced, most_significant]`
and the source's `a[i]*a[j]` products). -/
def mulEmulationT (w n bitLenLimb : Nat) : List Nat :=
  let a := [maxReducedLimb bitLenLimb, maxReducedLimb bitLenLimb, maxReducedLimb bitLenLimb,
    maxMostSignificantOperandLimb w n bitLenLimb]
  let p := negativeWrongModulusDecomposed w n bitLenLimb
  let q := [maxReducedLimb bitLenLimb, maxReducedLimb bitLenLimb, maxReducedLimb bitLenLimb,
    maxMostSignificantMulQuotientLimb w n bitLenLimb]
  (List.range (2 * numberOfLimbs - 1)).map (fun k =>
    ((List.range numberOfLimbs).map (fun i =>
      ((List.range numberOfLimbs).map (fun j =>
        if i + j = k then a.getD i 0 * a.getD j 0 + p.getD i 0 * q.getD j 0 else 0)).sum)).sum)

/-- The worst-case multiplication residues `(v0, v1)` of `Rns::construct`. -/
def mulVMax (w n bitLenLimb : Nat) : Nat × Nat :=
  let t := mulEmulationT w n bitLenLimb
  let u0 := t.getD 0 0 + (t.getD 1 0 <<< bitLenLimb)
  let u1 := t.getD 2 0 + (t.getD 3 0 <<< bitLenLimb) + (u0 >>> (2 * bitLenLimb))
  (u0 >>> (2 * bitLenLimb), u1 >>> (2 * bitLenLimb))

/-- The worst-case reduction residues `(v0, v1)` of `Rns::construct`
(`a` all-maximal-unreduced, `q = max_reduced_limb`, `t_i = a_i + q * p_i`). -/
def redVMax (w n bitLenLimb : Nat) : Nat × Nat :=
  let a := List.replicate 4 (maxUnreducedLimb bitLenLimb)
  let p := negativeWrongModulusDecomposed w n bitLenLimb
  let q := maxReducedLimb bitLenLimb
  let t := List.zipWith (fun ai pi => ai + q * pi) a p
  let u0 := t.getD 0 0 + (t.getD 1 0 <<< bitLenLimb)
  let u1 := t.getD 2 0 + (t.getD 3 0 <<< bitLenLimb) + (u0 >>> (2 * bitLenLimb))
  (u0 >>> (2 * bitLenLimb), u1 >>> (2 * bitLenLimb))

/-- `Rns::construct` (the field assembly; the runtime `assert!` statements are
collected separately in `ConstructAsserts`). -/
def Rns.construct (w n bitLenLimb : Nat) : Rns :=
  { bitLenLimb := bitLenLimb
    bitLenLookup := bitLenLimb / numberOfLookupLimbs
    wrongModulus := w
    nativeModulus := n
    binaryModulus := Halo2wrong.binaryModulus bitLenLimb
    crtModulus := Halo2wrong.crtModulus n bitLenLimb
    rightShifterR := Halo2wrong.rightShifterR n bitLenLimb
    rightShifter2r := Halo2wrong.rightShifter2r n bitLenLimb
    leftShifterR := Halo2wrong.leftShifterR n bitLenLimb
    leftShifter2r := Halo2wrong.leftShifter2r n bitLenLimb
    leftShifter3r := Halo2wrong.leftShifter3r n bitLenLimb
    baseAux := Halo2wrong.calculateBaseAux w n bitLenLimb
    negativeWrongModulusDecomposed := Halo2wrong.negativeWrongModulusDecomposed w n bitLenLimb
    wrongModulusDecomposed := Halo2wrong.wrongModulusDecomposed w n bitLenLimb
    wrongModulusMinusOne := Halo2wrong.wrongModulusMinusOne w n bitLenLimb
    wrongModulusInNativeModulus := w % n
    maxReducedLimb := Halo2wrong.maxReducedLimb bitLenLimb
    maxUnreducedLimb := Halo2wrong.maxUnreducedLimb bitLenLimb
    maxRemainder := Halo2wrong.maxRemainder w
    maxOperand := Halo2wrong.maxOperand w n bitLenLimb
    maxMulQuotient := Halo2wrong.maxMulQuotient w n bitLenLimb
    maxReducibleValue := Halo2wrong.maxReducibleValue w bitLenLimb
    maxWithMaxUnreducedLimbs := Halo2wrong.maxWithMaxUnreducedLimbs bitLenLimb
    maxDenseValue := Halo2wrong.maxDenseValue bitLenLimb
    maxMostSignificantReducedLimb := Halo2wrong.maxMostSignificantReducedLimb w bitLenLimb
    maxMostSignificantOperandLimb := Halo2wrong.maxMostSignificantOperandLimb w n bitLenLimb
    maxMostSignificantUnreducedLimb := Halo2wrong.maxUnreducedLimb bitLenLimb
    maxMostSignificantMulQuotientLimb := Halo2wrong.maxMostSignificantMulQuotientLimb w n bitLenLimb
    mulV0Overflow := bigBits (Halo2wrong.mulVMax w n bitLenLimb).1 - bitLenLimb
    mulV1Overflow := bigBits (Halo2wrong.mulVMax w n bitLenLimb).2 - bitLenLimb
    redV0Overflow := bigBits (Halo2wrong.redVMax w n bitLenLimb).1 - bitLenLimb
    redV1Overflow := bigBits (Halo2wrong.redVMax w n bitLenLimb).2 - bitLenLimb
    twoLimbMask := Halo2wrong.twoLimbMask bitLenLimb }

/-- `Rns::value`: compose an Integer with the Rns limb width. -/
def Rns.value (r : Rns) (a : Integer) : Nat := compose a.limbs r.bitLenLimb

/-- `Rns::new_from_limbs`. -/
def Rns.newFromLimbs (r : Rns) (limbs : List Nat) : Integer :=
  { limbs := limbs, bitLenLimb := r.bitLenLimb }

/-- `Rns::new_from_big` (its `assert!(e <= max_dense_value)` is a separate
proposition, `Rns.newFromBigAssert`). -/
def Rns.newFromBig (r : Rns) (e : Nat) : Integer :=
  Integer.fromBig r.nativeModulus e numberOfLimbs r.bitLenLimb

/-- The assertion of `Rns::new_from_big`. -/
def Rns.newFromBigAssert (r : Rns) (e : Nat) : Prop := e ≤ r.maxDenseValue

/-- `Rns::residues` (the returned tuple `(u_0, u_1, v_0, v_1)`; field
arithmetic of `N`). -/
def Rns.residues (r : Rns) (t : List Nat) (res : Integer) : Nat × Nat × Nat × Nat :=
  let n := r.nativeModulus
  let s := r.leftShifterR
  let u0 := nsub n (nsub n (nadd n (t.getD 0 0) (nmul n s (t.getD 1 0))) (res.limbValue 0))
    (nmul n s (res.limbValue 1))
  let u1 := nsub n (nsub n (nadd n (t.getD 2 0) (nmul n s (t.getD 3 0))) (res.limbValue 2))
    (nmul n s (res.limbValue 3))
  let v0 := nmul n u0 r.rightShifter2r
  let v1 := nmul n (nadd n u1 v0) r.rightShifter2r
  (u0, u1, v0, v1)

/-- The sanity-check block of `Rns::residues`: the low `2*bit_len_limb` bits
of `u_0` and of `u_0 * right_shifter_2r + u_1` are zero. -/
def Rns.residuesAssert (r : Rns) (t : List Nat) (res : Integer) : Prop :=
  (r.residues t res).1 &&& r.twoLimbMask = 0 ∧
  nadd r.nativeModulus (nmul r.nativeModulus (r.residues t res).1 r.rightShifter2r)
    (r.residues t res).2.1 &&& r.twoLimbMask = 0

/-- The schoolbook convolution terms of `Rns::mul`: `t` has `NUMBER_OF_LIMBS`
entries, `t[k]` accumulating `a.limb(i) * b.limb(j) + p[i] * q.limb(j)` over
`i + j = k` in the native field. -/
def Rns.mulT (r : Rns) (a b q : Integer) : List Nat :=
  let n := r.nativeModulus
  let p := r.negativeWrongModulusDecomposed
  (List.range numberOfLimbs).map (fun k =>
    (List.range (k+1)).foldl (fun acc i =>
      nadd n (nadd n acc (nmul n (a.limbValue i) (b.limbValue (k - i))))
        (nmul n (p.getD i 0) (q.limbValue (k - i)))) 0)

/-- `Rns::mul`. -/
def Rns.mul (r : Rns) (integer0 integer1 : Integer) : ReductionContext :=
  let modulus := r.wrongModulus
  let quotient := r.value integer0 * r.value integer1 / modulus
  let result := r.value integer0 * r.value integer1 % modulus
  let quotientInteger := r.newFromBig quotient
  let resultInteger := r.newFromBig result
  let t := r.mulT integer0 integer1 quotientInteger
  let res := r.residues t resultInteger
  { result := resultInteger
    quotient := Quotient.Long quotientInteger
    t := t
    u0 := res.1
    u1 := res.2.1
    v0 := res.2.2.1
    v1 := res.2.2.2 }

/-- `Rns::reduce` (its `assert!(quotient < 1 << bit_len_limb)` is the
separate proposition `Rns.reduceQuotientAssert`). -/
def Rns.reduce (r : Rns) (integer : Integer) : ReductionContext :=
  let modulus := r.wrongModulus
  let p := r.negativeWrongModulusDecomposed
  let quotient := r.value integer / modulus
  let result := r.value integer % modulus
  let quotientN := quotient % r.nativeModulus
  let t := List.zipWith (fun ai pi => nadd r.nativeModulus ai (nmul r.nativeModulus pi quotientN))
    integer.limbs p
  let resultInteger := r.newFromBig result
  let res := r.residues t resultInteger
  { result := resultInteger
    quotient := Quotient.Short quotientN
    t := t
    u0 := res.1
    u1 := res.2.1
    v0 := res.2.2.1
    v1 := res.2.2.2 }

/-- The assertion `quotient < 1 << bit_len_limb` inside `Rns::reduce`. -/
def Rns.reduceQuotientAssert (r : Rns) (integer : Integer) : Prop :=
  r.value integer / r.wrongModulus < 1 <<< r.bitLenLimb

/-- Specification of the external foreign-field inversion oracle
(`FieldExt::invert` on the `Wrong` field): on canonical representatives it
returns `none` exactly at zero and otherwise some modular inverse below the
modulus. -/
def WInvertSpec (w : Nat) (winv : Nat → Option Nat) : Prop :=
  ∀ x, x < w →
    ((x = 0 ∧ winv x = none) ∨
      (x ≠ 0 ∧ winv x ≠ none ∧ (winv x).getD 0 < w ∧ x * (winv x).getD 0 % w = 1))

/-- `Rns::invert`: reduce the value into the wrong field (`big_to_fe`),
invert there through the oracle, and re-decompose the result. -/
def Rns.invert (r : Rns) (winv : Nat → Option Nat) (a : Integer) : Option Integer :=
  (winv (r.value a % r.wrongModulus)).map (fun inv => r.newFromBig inv)

/-- Helper for `Rns::make_aux`: the number of iterations of the
`while max_val > aux { aux <<= 1 }` loop, computed with sufficient fuel. -/
def shiftsNeededAux : Nat → Nat → Nat → Nat
  | 0, _, _ => 0
  | fuel+1, maxVal, aux => if maxVal ≤ aux then 0 else shiftsNeededAux fuel maxVal (aux <<< 1) + 1

/-- Number of doublings needed for `aux` to reach `max_val`. -/
def shiftsNeeded (maxVal aux : Nat) : Nat := shiftsNeededAux (bigBits maxVal + 1) maxVal aux

/-- The `max_shift` computed by `Rns::make_aux`: the maximum over the limbs
of the number of doublings needed for the base-aux limb to dominate the
corresponding bound. -/
def Rns.makeAuxShift (r : Rns) (maxVals : List Nat) : Nat :=
  (List.range numberOfLimbs).foldl (fun ms i =>
    max ms (shiftsNeeded (maxVals.getD i 0) (r.baseAux.limbs.getD i 0))) 0

/-- `Rns::make_aux`: scale every limb of `base_aux` by the smallest single
power of two dominating all the per-limb bounds. -/
def Rns.makeAux (r : Rns) (maxVals : List Nat) : Integer :=
  r.newFromLimbs (r.baseAux.limbs.map
    (fun limb => (limb <<< r.makeAuxShift maxVals) % r.nativeModulus))

/-- The `assert!` statements executed by `Rns::construct`, in source order:
the binary/CRT modulus comparisons, the operand/quotient bound inequalities,
the most-significant-limb bit bounds, the reducibility bound, the quotient
bound of the worst-case reduction emulation, the lookup divisibility, the
`base_aux` checks, and the final reduction self-test. -/
def ConstructAsserts (w n bitLenLimb : Nat) : Prop :=
  binaryModulus bitLenLimb > w ∧
  binaryModulus bitLenLimb > n ∧
  binaryModulus bitLenLimb * n > w * w ∧
  crtModulus n bitLenLimb > preMaxOperand n bitLenLimb * preMaxOperand n bitLenLimb ∧
  preMaxOperand n bitLenLimb > w ∧
  crtModulus n bitLenLimb > maxMulQuotient w n bitLenLimb * w + maxRemainder w ∧
  maxMulQuotient w n bitLenLimb > w ∧
  maxOperand w n bitLenLimb ≤ preMaxOperand n bitLenLimb ∧
  maxOperand w n bitLenLimb > w ∧
  crtModulus n bitLenLimb > maxOperand w n bitLenLimb * maxOperand w n bitLenLimb ∧
  maxMulQuotient w n bitLenLimb * w + maxRemainder w >
    maxOperand w n bitLenLimb * maxOperand w n bitLenLimb ∧
  bigBits (maxMostSignificantReducedLimb w bitLenLimb) < bitLenLimb ∧
  bigBits (maxMostSignificantOperandLimb w n bitLenLimb) < bitLenLimb ∧
  bigBits (maxMostSignificantMulQuotientLimb w n bitLenLimb) ≤ bitLenLimb ∧
  maxReducibleValue w bitLenLimb > maxWithMaxUnreducedLimbs bitLenLimb ∧
  maxWithMaxUnreducedLimbs bitLenLimb / w < 1 <<< bitLenLimb ∧
  bitLenLimb / numberOfLookupLimbs * numberOfLookupLimbs = bitLenLimb ∧
  (calculateBaseAux w n bitLenLimb).value % w = 0 ∧
  (calculateBaseAux w n bitLenLimb).value > maxRemainder w ∧
  (∀ i, i < numberOfLimbs - 1 →
    (calculateBaseAux w n bitLenLimb).limbValue i ≥ maxReducedLimb bitLenLimb) ∧
  (calculateBaseAux w n bitLenLimb).limbValue (numberOfLimbs - 1) ≥
    maxMostSignificantReducedLimb w bitLenLimb ∧
  compose (List.replicate 4 (maxUnreducedLimb bitLenLimb % n)) bitLenLimb / w % n <
    maxReducedLimb bitLenLimb

/-- Convolution term as written in the specification: the schoolbook sum
`t[k] = sum over i + j = k of a.limb(i)*b.limb(j) + p[i]*q.limb(j)` as a
native-field element (stated for comparison with the `t` vector that
`Rns::mul` actually produces). -/
def specConvolutionTerm (n : Nat) (a b p q : List Nat) (k : Nat) : Nat :=
  (((List.range (k + 1)).map
    (fun i => a.getD i 0 * b.getD (k - i) 0 + p.getD i 0 * q.getD (k - i) 0)).sum) % n

instance (w n bl : Nat) : Decidable (ConstructAsserts w n bl) := by
  unfold ConstructAsserts
  infer_instance

instance (r : Rns) (t : List Nat) (res : Integer) : Decidable (r.residuesAssert t res) := by
  unfold Rns.residuesAssert
  infer_instance

instance (r : Rns) (a : Integer) : Decidable (r.reduceQuotientAssert a) := by
  unfold Rns.reduceQuotientAssert
  infer_instance

instance (r : Rns) (e : Nat) : Decidable (r.newFromBigAssert e) := by
  unfold Rns.newFromBigAssert
  infer_instance

instance (w : Nat) (winv : Nat → Option Nat) : Decidable (WInvertSpec w winv) := by
  unfold WInvertSpec
  infer_instance

/-! ### Concrete witness configuration

A small configuration on which `ConstructAsserts` holds, used to instantiate
the general theorems on explicit inputs: `bit_len_limb = 16`, a 57-bit wrong
modulus and a 57-bit odd native modulus. -/

/-- Witness wrong modulus. -/
def wW : Nat := 2 ^ 57 - 13

/-- Witness native modulus. -/
def nW : Nat := 2 ^ 57 + 81

/-- Witness limb bit length. -/
def blW : Nat := 16

/-- The witness parameter bundle. -/
def rnsW : Rns := Rns.construct wW nW blW

/-- A concrete unreduced witness Integer. -/
def aW : Integer := { limbs := [16777214, 999999, 123456, 16770000], bitLenLimb := 16 }

/-- A concrete operand-range witness Integer. -/
def bW : Integer := rnsW.newFromBig (2 ^ 56 + 123456789123)

/-- Another concrete operand-range witness Integer. -/
def cW : Integer := rnsW.newFromBig (2 ^ 58 + 98765)

/-- A concrete inversion oracle for the wrong modulus 13 (Fermat inversion). -/
def winv13 : Nat → Option Nat := fun x => if x % 13 = 0 then none else some (x ^ 11 % 13)

/-- A tiny parameter bundle for the inversion claims. -/
def rns13 : Rns := Rns.construct 13 17 4

/-! ### Basic facts about `bigBits` -/

theorem bitsAux_le_iff (fuel : Nat) : ∀ x k : Nat, x ≤ fuel → (bitsAux fuel x ≤ k ↔ x < 2 ^ k) := by
  induction fuel with
  | zero =>
    intro x k hx
    have hx0 : x = 0 := by omega
    subst hx0
    show (0 : Nat) ≤ k ↔ 0 < 2 ^ k
    exact ⟨fun _ => Nat.two_pow_pos k, fun _ => Nat.zero_le k⟩
  | succ fuel ih =>
    intro x k hx
    rw [bitsAux]
    by_cases h2 : x < 2
    · rw [if_pos h2]
      by_cases h0 : x = 0
      · subst h0
        show (0 : Nat) ≤ k ↔ 0 < 2 ^ k
        exact ⟨fun _ => Nat.two_pow_pos k, fun _ => Nat.zero_le k⟩
      · have hx1 : x = 1 := by omega
        subst hx1
        show (1 : Nat) ≤ k ↔ 1 < 2 ^ k
        constructor
        · intro hk
          calc 1 < 2 ^ 1 := by norm_num
            _ ≤ 2 ^ k := Nat.pow_le_pow_right (by omega) hk
        · intro hk
          by_contra hc
          have hk0 : k = 0 := by omega
          subst hk0
          simp at hk
    · rw [if_neg h2]
      cases k with
      | zero =>
        simp only [pow_zero]
        constructor
        · intro hk; omega
        · intro hk; omega
      | succ k =>
        have hrec : x / 2 ≤ fuel := by omega
        rw [Nat.succ_le_succ_iff, ih (x / 2) k hrec, pow_succ]
        constructor
        · intro h
          have := Nat.lt_mul_of_div_lt h (by omega)
          omega
        · intro h
          exact Nat.div_lt_of_lt_mul (by omega)

theorem bigBits_le_iff (x k : Nat) : bigBits x ≤ k ↔ x < 2 ^ k :=
  bitsAux_le_iff x x k le_rfl

theorem lt_two_pow_bigBits (x : Nat) : x < 2 ^ bigBits x :=
  (bigBits_le_iff x (bigBits x)).mp le_rfl

theorem bigBits_pos {x : Nat} (hx : 1 ≤ x) : 1 ≤ bigBits x := by
  by_contra h
  have : bigBits x ≤ 0 := by omega
  have := (bigBits_le_iff x 0).mp this
  simp at this
  omega

theorem two_pow_bigBits_pred_le {x : Nat} (hx : 1 ≤ x) : 2 ^ (bigBits x - 1) ≤ x := by
  by_contra h
  have hlt : x < 2 ^ (bigBits x - 1) := by omega
  have := (bigBits_le_iff x (bigBits x - 1)).mpr hlt
  have := bigBits_pos hx
  omega

/-! ### Basic facts about `compose` and `decompose` -/

theorem composeAux_shift (bitLen : Nat) (xs : List Nat) :
    ∀ i, composeAux bitLen (i + 1) xs = 2 ^ bitLen * composeAux bitLen i xs := by
  induction xs with
  | nil => intro i; simp [composeAux]
  | cons x rest ih =>
    intro i
    simp only [composeAux, ih (i + 1), Nat.shiftLeft_eq]
    rw [Nat.mul_add, Nat.mul_succ, pow_add]
    ring

theorem compose_nil (bitLen : Nat) : compose [] bitLen = 0 := rfl

theorem compose_cons (x : Nat) (xs : List Nat) (bitLen : Nat) :
    compose (x :: xs) bitLen = x + 2 ^ bitLen * compose xs bitLen := by
  simp only [compose, composeAux, Nat.shiftLeft_eq, Nat.mul_zero, pow_zero, Nat.mul_one]
  rw [composeAux_shift]

theorem compose_four (x0 x1 x2 x3 bitLen : Nat) :
    compose [x0, x1, x2, x3] bitLen =
      x0 + 2 ^ bitLen * (x1 + 2 ^ bitLen * (x2 + 2 ^ bitLen * x3)) := by
  rw [compose_cons, compose_cons, compose_cons, compose_cons, compose_nil]
  ring

theorem decompose_succ (n e k bitLen : Nat) :
    decompose n e (k + 1) bitLen = e % 2 ^ bitLen % n :: decompose n (e >>> bitLen) k bitLen := by
  rw [decompose]
  congr 1
  rw [Nat.land_comm, Nat.shiftLeft_eq, Nat.one_mul, Nat.and_pow_two_sub_one_eq_mod]

theorem decompose_length (n : Nat) : ∀ e k bitLen, (decompose n e k bitLen).length = k := by
  intro e k
  induction k generalizing e with
  | zero => intro bitLen; rfl
  | succ k ih => intro bitLen; rw [decompose_succ, List.length_cons, ih]

theorem decompose_limb_lt (n e k bitLen : Nat) :
    ∀ l ∈ decompose n e k bitLen, l < 2 ^ bitLen := by
  induction k generalizing e with
  | zero => simp [decompose]
  | succ k ih =>
    rw [decompose_succ]
    intro l hl
    rcases List.mem_cons.mp hl with h | h
    · subst h
      exact Nat.lt_of_le_of_lt (Nat.mod_le _ _) (Nat.mod_lt _ (Nat.two_pow_pos _))
    · exact ih _ l h

theorem decompose_limb_lt_n {n : Nat} (hn : 0 < n) (e k bitLen : Nat) :
    ∀ l ∈ decompose n e k bitLen, l < n := by
  induction k generalizing e with
  | zero => simp [decompose]
  | succ k ih =>
    rw [decompose_succ]
    intro l hl
    rcases List.mem_cons.mp hl with h | h
    · subst h; exact Nat.mod_lt _ hn
    · exact ih _ l h

theorem compose_decompose {n bitLen : Nat} (hn : 2 ^ bitLen ≤ n) :
    ∀ k e, compose (decompose n e k bitLen) bitLen = e % 2 ^ (bitLen * k) := by
  intro k
  induction k with
  | zero => intro e; simp [decompose, compose_nil, Nat.mod_one]
  | succ k ih =>
    intro e
    rw [decompose_succ, compose_cons, ih, Nat.shiftRight_eq_div_pow]
    have hmask : e % 2 ^ bitLen % n = e % 2 ^ bitLen :=
      Nat.mod_eq_of_lt (Nat.lt_of_lt_of_le (Nat.mod_lt _ (Nat.two_pow_pos _)) hn)
    rw [hmask, show bitLen * (k + 1) = bitLen + bitLen * k by ring, pow_add, Nat.mod_mul]

theorem compose_decompose_of_lt {n bitLen : Nat} (hn : 2 ^ bitLen ≤ n) {k e : Nat}
    (he : e < 2 ^ (bitLen * k)) : compose (decompose n e k bitLen) bitLen = e := by
  rw [compose_decompose hn, Nat.mod_eq_of_lt he]

/-! ### Native field operations seen in `ZMod n` -/

theorem natCast_nadd (n x y : Nat) : ((nadd n x y : Nat) : ZMod n) = (x : ZMod n) + y := by
  unfold nadd
  rw [ZMod.natCast_mod]
  push_cast
  ring

theorem natCast_nmul (n x y : Nat) : ((nmul n x y : Nat) : ZMod n) = (x : ZMod n) * y := by
  unfold nmul
  rw [ZMod.natCast_mod]
  push_cast
  ring

theorem natCast_nsub {n : Nat} (hn : 0 < n) (x y : Nat) :
    ((nsub n x y : Nat) : ZMod n) = (x : ZMod n) - y := by
  unfold nsub
  rw [ZMod.natCast_mod, Nat.cast_add, Nat.cast_sub (le_of_lt (Nat.mod_lt _ hn)),
    ZMod.natCast_self, ZMod.natCast_mod]
  ring

theorem nadd_lt {n : Nat} (hn : 0 < n) (x y : Nat) : nadd n x y < n := Nat.mod_lt _ hn

theorem nsub_lt {n : Nat} (hn : 0 < n) (x y : Nat) : nsub n x y < n := Nat.mod_lt _ hn

theorem natCast_inj_of_lt {n x y : Nat} (hn : 0 < n) (hx : x < n) (hy : y < n)
    (h : (x : ZMod n) = y) : x = y := by
  haveI : NeZero n := ⟨by omega⟩
  have hv := congrArg ZMod.val h
  rwa [ZMod.val_natCast_of_lt hx, ZMod.val_natCast_of_lt hy] at hv

theorem twoInvN_mul_two {n : Nat} (hodd : n % 2 = 1) : ((twoInvN n : Nat) : ZMod n) * 2 = 1 := by
  have h : twoInvN n * 2 = n + 1 := by unfold twoInvN; omega
  have hc := congrArg (fun t : Nat => (t : ZMod n)) h
  push_cast at hc
  rw [ZMod.natCast_self] at hc
  simpa using hc

theorem rightShifter2r_mul {n : Nat} (hodd : n % 2 = 1) (bl : Nat) :
    ((rightShifter2r n bl : Nat) : ZMod n) * 2 ^ (2 * bl) = 1 := by
  unfold rightShifter2r
  rw [ZMod.natCast_mod]
  push_cast
  rw [← mul_pow]
  rw [twoInvN_mul_two hodd]
  simp

theorem leftShifterR_cast (n bl : Nat) : ((leftShifterR n bl : Nat) : ZMod n) = 2 ^ bl := by
  unfold leftShifterR
  rw [ZMod.natCast_mod]
  push_cast
  rfl

/-! ### The two-window decomposition underlying the residue check -/

theorem window_split (P2 A lowr B highr q H : Nat) (hP2 : 0 < P2)
    (hlowr : lowr < P2) (hhighr : highr < P2)
    (hident : A + P2 * B + P2 * P2 * H = q * (P2 * P2) + (lowr + P2 * highr)) :
    ∃ V W : Nat, A = lowr + P2 * V ∧ V + B = highr + P2 * W := by
  have hident2 : (A : ℤ) + P2 * B + P2 * P2 * H = q * (P2 * P2) + (lowr + P2 * highr) := by
    exact_mod_cast hident
  set V2 : ℤ := q * P2 + highr - (B + P2 * H) with hV2def
  have key : (A : ℤ) - lowr = P2 * V2 := by
    rw [hV2def]
    linear_combination hident2
  have hP2z : (0 : ℤ) < P2 := by exact_mod_cast hP2
  have hVpos : 0 ≤ V2 := by
    rcases le_or_lt 0 V2 with h | h
    · exact h
    · exfalso
      have h1 : V2 ≤ -1 := by omega
      have h2 : (P2 : ℤ) * V2 ≤ P2 * (-1) := by
        exact mul_le_mul_of_nonneg_left h1 (le_of_lt hP2z)
      have h3 : (0 : ℤ) ≤ A := by positivity
      have h4 : (lowr : ℤ) < P2 := by exact_mod_cast hlowr
      nlinarith [key]
  set W2 : ℤ := (q : ℤ) - H with hW2def
  have key2 : V2 + B - highr = P2 * W2 := by
    rw [hV2def, hW2def]
    ring
  have hWpos : 0 ≤ W2 := by
    rcases le_or_lt 0 W2 with h | h
    · exact h
    · exfalso
      have h1 : W2 ≤ -1 := by omega
      have h2 : (P2 : ℤ) * W2 ≤ P2 * (-1) := by
        exact mul_le_mul_of_nonneg_left h1 (le_of_lt hP2z)
      have h4 : (highr : ℤ) < P2 := by exact_mod_cast hhighr
      have h5 : (0 : ℤ) ≤ B := by positivity
      nlinarith [key2]
  refine ⟨V2.toNat, W2.toNat, ?_, ?_⟩
  · have hz : (A : ℤ) = lowr + P2 * V2.toNat := by
      rw [Int.toNat_of_nonneg hVpos]
      linarith [key]
    exact_mod_cast hz
  · have hz : (V2.toNat : ℤ) + B = highr + P2 * W2.toNat := by
      rw [Int.toNat_of_nonneg hVpos, Int.toNat_of_nonneg hWpos]
      linarith [key2]
    exact_mod_cast hz

/-- Core soundness of the `Rns::residues` sanity block: whenever the integer
versions `T0..T3` of the four `t` terms, the claimed result limbs `r0..r3`,
a quotient `q` and a discarded high part `H` satisfy the exact window
identity over the integers, and the windows fit below the native modulus,
then both field values checked by the sanity block have their low
`2*bit_len_limb` bits equal to zero. -/
theorem residues_core (n bl : Nat) (hn0 : 0 < n) (hodd : n % 2 = 1)
    (t0 t1 t2 t3 r0 r1 r2 r3 T0 T1 T2 T3 q H : Nat)
    (ht0 : (t0 : ZMod n) = (T0 : Nat)) (ht1 : (t1 : ZMod n) = (T1 : Nat))
    (ht2 : (t2 : ZMod n) = (T2 : Nat)) (ht3 : (t3 : ZMod n) = (T3 : Nat))
    (hr0 : r0 < 2 ^ bl) (hr1 : r1 < 2 ^ bl) (hr2 : r2 < 2 ^ bl) (hr3 : r3 < 2 ^ bl)
    (hident : (T0 + 2 ^ bl * T1) + 2 ^ (bl * 2) * (T2 + 2 ^ bl * T3) + 2 ^ (bl * 4) * H
      = q * 2 ^ (bl * 4) + ((r0 + 2 ^ bl * r1) + 2 ^ (bl * 2) * (r2 + 2 ^ bl * r3)))
    (hbound : (T0 + 2 ^ bl * T1) + (T2 + 2 ^ bl * T3) < n) :
    nsub n (nsub n (nadd n t0 (nmul n (leftShifterR n bl) t1)) r0)
      (nmul n (leftShifterR n bl) r1) % 2 ^ (bl * 2) = 0 ∧
    nadd n (nmul n (nsub n (nsub n (nadd n t0 (nmul n (leftShifterR n bl) t1)) r0)
        (nmul n (leftShifterR n bl) r1)) (rightShifter2r n bl))
      (nsub n (nsub n (nadd n t2 (nmul n (leftShifterR n bl) t3)) r2)
        (nmul n (leftShifterR n bl) r3)) % 2 ^ (bl * 2) = 0 := by
  have hP : (0 : Nat) < 2 ^ bl := Nat.two_pow_pos bl
  have hP2 : (0 : Nat) < 2 ^ (bl * 2) := Nat.two_pow_pos _
  have hpow2 : (2 : Nat) ^ (bl * 2) = 2 ^ bl * 2 ^ bl := by
    rw [show bl * 2 = bl + bl by ring, pow_add]
  have hpow4 : (2 : Nat) ^ (bl * 4) = 2 ^ (bl * 2) * 2 ^ (bl * 2) := by
    rw [show bl * 4 = bl * 2 + bl * 2 by ring, pow_add]
  -- the exact window decomposition
  obtain ⟨V, W, hV, hW⟩ := window_split (2 ^ (bl * 2)) (T0 + 2 ^ bl * T1) (r0 + 2 ^ bl * r1)
    (T2 + 2 ^ bl * T3) (r2 + 2 ^ bl * r3) q H hP2
    (by rw [hpow2]; nlinarith)
    (by rw [hpow2]; nlinarith)
    (by rw [← hpow4]; exact hident)
  have hchain : ∀ s0 s1 s2 s3 : Nat,
      ((nsub n (nsub n (nadd n s0 (nmul n (leftShifterR n bl) s1)) s2)
        (nmul n (leftShifterR n bl) s3) : Nat) : ZMod n)
        = (s0 : ZMod n) + 2 ^ bl * s1 - s2 - 2 ^ bl * s3 := by
    intro s0 s1 s2 s3
    rw [natCast_nsub hn0, natCast_nsub hn0, natCast_nadd, natCast_nmul, natCast_nmul,
      leftShifterR_cast]
  have hVlt : 2 ^ (bl * 2) * V < n := by
    have h1 : 2 ^ (bl * 2) * V ≤ T0 + 2 ^ bl * T1 := by omega
    omega
  have hu0cast : ((nsub n (nsub n (nadd n t0 (nmul n (leftShifterR n bl) t1)) r0)
      (nmul n (leftShifterR n bl) r1) : Nat) : ZMod n) = ((2 ^ (bl * 2) * V : Nat) : ZMod n) := by
    rw [hchain, ht0, ht1]
    have hcast := congrArg (fun t : Nat => (t : ZMod n)) hV
    push_cast at hcast ⊢
    linear_combination hcast
  have hu0 : nsub n (nsub n (nadd n t0 (nmul n (leftShifterR n bl) t1)) r0)
      (nmul n (leftShifterR n bl) r1) = 2 ^ (bl * 2) * V :=
    natCast_inj_of_lt hn0 (nsub_lt hn0 _ _) hVlt hu0cast
  constructor
  · rw [hu0]
    exact Nat.mul_mod_right _ _
  · have hWlt : 2 ^ (bl * 2) * W < n := by
      have hVV : V ≤ 2 ^ (bl * 2) * V := Nat.le_mul_of_pos_left V hP2
      have h1 : 2 ^ (bl * 2) * V ≤ T0 + 2 ^ bl * T1 := by omega
      have h2 : 2 ^ (bl * 2) * W ≤ V + (T2 + 2 ^ bl * T3) := by omega
      omega
    have hrs : ((2 ^ (bl * 2) * V : Nat) : ZMod n) * ((rightShifter2r n bl : Nat) : ZMod n)
        = (V : ZMod n) := by
      push_cast
      have h2 : ((rightShifter2r n bl : Nat) : ZMod n) * 2 ^ (2 * bl) = 1 :=
        rightShifter2r_mul hodd bl
      calc (2 : ZMod n) ^ (bl * 2) * (V : ZMod n) * ((rightShifter2r n bl : Nat) : ZMod n)
          = (V : ZMod n) * (((rightShifter2r n bl : Nat) : ZMod n) * 2 ^ (2 * bl)) := by
            rw [show 2 * bl = bl * 2 by ring]
            ring
        _ = V := by rw [h2]; ring
    have hu1s_cast : ((nadd n (nmul n (nsub n (nsub n (nadd n t0 (nmul n (leftShifterR n bl) t1)) r0)
        (nmul n (leftShifterR n bl) r1)) (rightShifter2r n bl))
        (nsub n (nsub n (nadd n t2 (nmul n (leftShifterR n bl) t3)) r2)
          (nmul n (leftShifterR n bl) r3)) : Nat) : ZMod n)
        = ((2 ^ (bl * 2) * W : Nat) : ZMod n) := by
      rw [natCast_nadd, natCast_nmul, hu0, hchain, ht2, ht3, hrs]
      have hcast := congrArg (fun t : Nat => (t : ZMod n)) hW
      push_cast at hcast ⊢
      linear_combination hcast
    have hu1s : nadd n (nmul n (nsub n (nsub n (nadd n t0 (nmul n (leftShifterR n bl) t1)) r0)
        (nmul n (leftShifterR n bl) r1)) (rightShifter2r n bl))
        (nsub n (nsub n (nadd n t2 (nmul n (leftShifterR n bl) t3)) r2)
          (nmul n (leftShifterR n bl) r3)) = 2 ^ (bl * 2) * W :=
      natCast_inj_of_lt hn0 (nadd_lt hn0 _ _) hWlt hu1s_cast
    rw [hu1s]
    exact Nat.mul_mod_right _ _

/-! ### Projections of `Rns.construct` -/

theorem construct_bitLenLimb (w n bl : Nat) : (Rns.construct w n bl).bitLenLimb = bl := rfl

theorem construct_wrongModulus (w n bl : Nat) : (Rns.construct w n bl).wrongModulus = w := rfl

theorem construct_nativeModulus (w n bl : Nat) : (Rns.construct w n bl).nativeModulus = n := rfl

theorem construct_negativeWrongModulusDecomposed (w n bl : Nat) :
    (Rns.construct w n bl).negativeWrongModulusDecomposed =
      negativeWrongModulusDecomposed w n bl := rfl

theorem construct_leftShifterR (w n bl : Nat) :
    (Rns.construct w n bl).leftShifterR = leftShifterR n bl := rfl

theorem construct_rightShifter2r (w n bl : Nat) :
    (Rns.construct w n bl).rightShifter2r = rightShifter2r n bl := rfl

theorem construct_twoLimbMask (w n bl : Nat) :
    (Rns.construct w n bl).twoLimbMask = twoLimbMask bl := rfl

theorem construct_maxRemainder (w n bl : Nat) :
    (Rns.construct w n bl).maxRemainder = maxRemainder w := rfl

theorem construct_maxOperand (w n bl : Nat) :
    (Rns.construct w n bl).maxOperand = maxOperand w n bl := rfl

theorem construct_baseAux (w n bl : Nat) :
    (Rns.construct w n bl).baseAux = calculateBaseAux w n bl := rfl

/-! ### Arithmetic consequences of the construction recipe -/

theorem binaryModulus_eq (bl : Nat) : binaryModulus bl = 2 ^ (bl * 4) := by
  unfold binaryModulus numberOfLimbs
  rw [Nat.shiftLeft_eq, one_mul]

theorem maxRemainder_eq (w : Nat) : maxRemainder w = 2 ^ bigBits w - 1 := by
  unfold maxRemainder
  rw [Nat.shiftLeft_eq, one_mul]

theorem le_maxRemainder {w : Nat} (hw : 1 ≤ w) : w ≤ maxRemainder w := by
  have h := lt_two_pow_bigBits w
  rw [maxRemainder_eq]
  omega

theorem maxRemainder_lt_two_mul {w : Nat} (hw : 1 ≤ w) : maxRemainder w < 2 * w := by
  have hb := bigBits_pos hw
  have h1 := two_pow_bigBits_pred_le hw
  have h2 : 2 ^ bigBits w = 2 * 2 ^ (bigBits w - 1) := by
    conv_lhs => rw [show bigBits w = (bigBits w - 1) + 1 by omega]
    rw [pow_succ]
    ring
  rw [maxRemainder_eq]
  omega

theorem maxReducedLimb_eq (bl : Nat) : maxReducedLimb bl = 2 ^ bl - 1 := by
  unfold maxReducedLimb
  rw [Nat.shiftLeft_eq, one_mul]

theorem maxUnreducedLimb_eq (bl : Nat) : maxUnreducedLimb bl = 2 ^ (bl + bl / 2) - 1 := by
  unfold maxUnreducedLimb
  rw [Nat.shiftLeft_eq, one_mul]

theorem maxOperand_eq (w n bl : Nat) :
    maxOperand w n bl = 2 ^ maxOperandBitLen w n bl - 1 := by
  unfold maxOperand
  rw [Nat.shiftLeft_eq, one_mul]

theorem maxMulQuotient_eq (w n bl : Nat) :
    maxMulQuotient w n bl = 2 ^ (bigBits (preMaxMulQuotient w n bl) - 1) - 1 := by
  unfold maxMulQuotient
  rw [Nat.shiftLeft_eq, one_mul]

/-- Destructuring of a list of length four. -/
theorem list_four_of_length {A : Type} {l : List A} (h : l.length = 4) :
    ∃ a b c d, l = [a, b, c, d] := by
  match l with
  | [a, b, c, d] => exact ⟨a, b, c, d, rfl⟩
  | [] => simp at h
  | [_] => simp at h
  | [_, _] => simp at h
  | [_, _, _] => simp at h
  | _ :: _ :: _ :: _ :: _ :: _ =>
    simp only [List.length_cons] at h
    omega

/-- The explicit four limbs of `decompose` on an in-range value. -/
theorem decompose_four_spec {n bl : Nat} (hn : 2 ^ bl ≤ n) (e : Nat) (he : e < 2 ^ (bl * 4)) :
    ∃ e0 e1 e2 e3 : Nat, decompose n e 4 bl = [e0, e1, e2, e3] ∧
      e0 < 2 ^ bl ∧ e1 < 2 ^ bl ∧ e2 < 2 ^ bl ∧ e3 < 2 ^ bl ∧
      e0 + 2 ^ bl * (e1 + 2 ^ bl * (e2 + 2 ^ bl * e3)) = e := by
  obtain ⟨e0, e1, e2, e3, hl⟩ := list_four_of_length (decompose_length n e 4 bl)
  refine ⟨e0, e1, e2, e3, hl, ?_, ?_, ?_, ?_, ?_⟩
  · exact decompose_limb_lt n e 4 bl e0 (by rw [hl]; simp)
  · exact decompose_limb_lt n e 4 bl e1 (by rw [hl]; simp)
  · exact decompose_limb_lt n e 4 bl e2 (by rw [hl]; simp)
  · exact decompose_limb_lt n e 4 bl e3 (by rw [hl]; simp)
  · have hc := compose_decompose_of_lt hn he
    rw [hl, compose_four] at hc
    exact hc

/-- The quotient of a multiplication of two operands in the `max_operand`
range fits below the binary modulus; derived from the construction recipe
and its assertions. -/
theorem mul_quotient_lt {w n bl : Nat} (hca : ConstructAsserts w n bl) (hw : 2 ≤ w)
    {x : Nat} (hx : x ≤ maxOperand w n bl * maxOperand w n bl) :
    x / w < 2 ^ (bl * 4) := by
  obtain ⟨-, -, -, -, -, -, h7, -, -, -, h11, -, -, h14, -, -, -, -, -, -, -, -⟩ := hca
  have hmq3 : 3 ≤ maxMulQuotient w n bl := by omega
  have hS6 : 3 * 2 ≤ maxMulQuotient w n bl * w := Nat.mul_le_mul hmq3 hw
  have hS1 : 1 ≤ maxMulQuotient w n bl * w + maxRemainder w := by omega
  have hS4 : 4 ≤ maxMulQuotient w n bl * w + maxRemainder w := by omega
  set S := maxMulQuotient w n bl * w + maxRemainder w with hSdef
  have hBS : 2 ^ (bigBits S - 1) ≤ S := two_pow_bigBits_pred_le hS1
  have hB2 : 2 ≤ bigBits S := by
    by_contra hc
    have : bigBits S ≤ 1 := by omega
    have := (bigBits_le_iff S 1).mp this
    omega
  have hmo : maxOperand w n bl < 2 ^ (bigBits S / 2 - 1) := by
    rw [maxOperand_eq]
    unfold maxOperandBitLen
    rw [← hSdef]
    exact Nat.sub_lt (Nat.two_pow_pos _) (by omega)
  have hsq : maxOperand w n bl * maxOperand w n bl < 2 ^ (bigBits S - 2) := by
    have hs : maxOperand w n bl * maxOperand w n bl
        < 2 ^ (bigBits S / 2 - 1) * 2 ^ (bigBits S / 2 - 1) :=
      Nat.mul_lt_mul_of_lt_of_le hmo (le_of_lt hmo) (Nat.two_pow_pos _)
    have hexp : 2 ^ (bigBits S / 2 - 1) * 2 ^ (bigBits S / 2 - 1)
        ≤ 2 ^ (bigBits S - 2) := by
      rw [← pow_add]
      exact Nat.pow_le_pow_right (by omega) (by omega)
    omega
  have hhalf : 2 ^ (bigBits S - 2) * 2 = 2 ^ (bigBits S - 1) := by
    rw [show bigBits S - 1 = (bigBits S - 2) + 1 by omega, pow_succ]
  have hqS : 2 * x < S := by omega
  have hrem : maxRemainder w < 2 * w := maxRemainder_lt_two_mul (by omega)
  have hxlin : x < maxMulQuotient w n bl * w + w := by
    rw [hSdef] at hqS
    omega
  have hqmq : x / w < maxMulQuotient w n bl + 1 :=
    (Nat.div_lt_iff_lt_mul (by omega)).mpr (by rw [add_mul, one_mul]; omega)
  have hmqT : maxMulQuotient w n bl < 2 ^ (bl * 4) := by
    unfold maxMostSignificantMulQuotientLimb numberOfLimbs at h14
    have hdiv : maxMulQuotient w n bl >>> ((4 - 1) * bl) < 2 ^ bl := (bigBits_le_iff _ _).mp h14
    rw [Nat.shiftRight_eq_div_pow] at hdiv
    have := (Nat.div_lt_iff_lt_mul (Nat.two_pow_pos ((4 - 1) * bl))).mp hdiv
    calc maxMulQuotient w n bl < 2 ^ bl * 2 ^ ((4 - 1) * bl) := this
      _ = 2 ^ (bl * 4) := by rw [← pow_add]; congr 1; ring
  omega

/-! ### Reduction and multiplication correctness -/

theorem construct_newFromBig_value {w n bl : Nat} (hn : 2 ^ bl ≤ n) {e : Nat}
    (he : e < 2 ^ (bl * 4)) : ((Rns.construct w n bl).newFromBig e).value = e := by
  show compose (decompose n e numberOfLimbs bl) bl = e
  exact compose_decompose_of_lt hn he

theorem compose_le_compose4 {x0 x1 x2 x3 U bl : Nat} (h0 : x0 ≤ U) (h1 : x1 ≤ U)
    (h2 : x2 ≤ U) (h3 : x3 ≤ U) :
    compose [x0, x1, x2, x3] bl ≤ compose [U, U, U, U] bl := by
  rw [compose_four, compose_four]
  gcongr

/-- C3: for every non-negative integer below `2^(bit_len_limb * 4)`,
composing the four little-endian limbs produced by `decompose` yields the
value back (with the limb width not exceeding the native field size, so
that the limb-to-field conversion is lossless). -/
theorem claim_C3_compose_decompose_roundtrip (n bl x : Nat) (hn : 2 ^ bl ≤ n)
    (hx : x < 2 ^ (bl * 4)) : compose (decompose n x 4 bl) bl = x :=
  compose_decompose_of_lt hn hx

/-- Witness for C3 on a concrete input. -/
theorem claim_C3_witness :
    compose (decompose nW 12345678901234567 4 16) 16 = 12345678901234567 :=
  claim_C3_compose_decompose_roundtrip nW 16 12345678901234567 (by decide) (by decide)

/-- C10: for every non-negative integer, also above `2^(bit_len * k)`,
`decompose` returns `k` limbs each strictly below `2^bit_len`, and `compose`
of those limbs is the value reduced modulo `2^(bit_len * k)`: the high bits
are silently truncated (assuming `2^bit_len` does not exceed the native
modulus, so limbs convert without reduction). -/
theorem claim_C10_decompose_truncates (m bl x k : Nat) (hm : 2 ^ bl ≤ m) :
    (decompose m x k bl).length = k ∧ (∀ l ∈ decompose m x k bl, l < 2 ^ bl) ∧
    compose (decompose m x k bl) bl = x % 2 ^ (bl * k) :=
  ⟨decompose_length m x k bl, decompose_limb_lt m x k bl, compose_decompose hm k x⟩

/-- Witness for C10 on a concrete out-of-range input. -/
theorem claim_C10_witness :
    (decompose nW (2 ^ 70 + 5) 4 16).length = 4 ∧
    (∀ l ∈ decompose nW (2 ^ 70 + 5) 4 16, l < 2 ^ 16) ∧
    compose (decompose nW (2 ^ 70 + 5) 4 16) 16 = (2 ^ 70 + 5) % 2 ^ (16 * 4) :=
  claim_C10_decompose_truncates nW 16 (2 ^ 70 + 5) 4 (by decide)

/-- C2: for every Integer whose limbs are below `max_unreduced_limb`, the
`ReductionContext` returned by `Rns::reduce` has
`result.value = value mod wrong_modulus` and a `Short` quotient (the single
native-field element `value / wrong_modulus` reduced into the native field). -/
theorem claim_C2_reduce_correct (w n bl : Nat) (hca : ConstructAsserts w n bl)
    (hw : 0 < w) (hn : 2 ^ bl ≤ n) (a : Integer) (hlen : a.limbs.length = 4)
    (hbnd : ∀ l ∈ a.limbs, l < maxUnreducedLimb bl) :
    ((Rns.construct w n bl).reduce a).result.value = (Rns.construct w n bl).value a % w ∧
    ((Rns.construct w n bl).reduce a).quotient =
      Quotient.Short ((Rns.construct w n bl).value a / w % n) := by
  obtain ⟨h1, -, -, -, -, -, -, -, -, -, -, -, -, -, -, -, -, -, -, -, -, -⟩ := hca
  constructor
  · show ((Rns.construct w n bl).newFromBig ((Rns.construct w n bl).value a % w)).value = _
    apply construct_newFromBig_value hn
    have hwlt : w < 2 ^ (bl * 4) := by rw [← binaryModulus_eq]; exact h1
    exact lt_trans (Nat.mod_lt _ hw) hwlt
  · rfl

/-- Witness for C2 on a concrete unreduced Integer. -/
theorem claim_C2_witness :
    (rnsW.reduce aW).result.value = rnsW.value aW % wW ∧
    (rnsW.reduce aW).quotient = Quotient.Short (rnsW.value aW / wW % nW) :=
  claim_C2_reduce_correct wW nW blW (by decide) (by decide) (by decide) aW (by decide)
    (by decide)

/-- C4: for every Integer whose limbs are at most `max_unreduced_limb`, the
integer quotient of its composed value by the wrong modulus is strictly less
than `2^bit_len_limb`, so the assertion inside `Rns::reduce` never fails
(given an `Rns` whose construction-time assertions passed). -/
theorem claim_C4_reduce_quotient_bound (w n bl : Nat) (hca : ConstructAsserts w n bl)
    (a : Integer) (hlen : a.limbs.length = 4)
    (hbnd : ∀ l ∈ a.limbs, l ≤ maxUnreducedLimb bl) :
    (Rns.construct w n bl).reduceQuotientAssert a := by
  obtain ⟨-, -, -, -, -, -, -, -, -, -, -, -, -, -, -, h16, -, -, -, -, -, -⟩ := hca
  unfold Rns.reduceQuotientAssert
  obtain ⟨a0, a1, a2, a3, hl⟩ := list_four_of_length hlen
  have hb0 : a0 ≤ maxUnreducedLimb bl := hbnd a0 (by rw [hl]; simp)
  have hb1 : a1 ≤ maxUnreducedLimb bl := hbnd a1 (by rw [hl]; simp)
  have hb2 : a2 ≤ maxUnreducedLimb bl := hbnd a2 (by rw [hl]; simp)
  have hb3 : a3 ≤ maxUnreducedLimb bl := hbnd a3 (by rw [hl]; simp)
  have hva : (Rns.construct w n bl).value a = compose [a0, a1, a2, a3] bl := by
    show compose a.limbs bl = _
    rw [hl]
  have hmw : maxWithMaxUnreducedLimbs bl
      = compose [maxUnreducedLimb bl, maxUnreducedLimb bl, maxUnreducedLimb bl,
        maxUnreducedLimb bl] bl := rfl
  have hle : (Rns.construct w n bl).value a ≤ maxWithMaxUnreducedLimbs bl := by
    rw [hva, hmw]
    exact compose_le_compose4 hb0 hb1 hb2 hb3
  show (Rns.construct w n bl).value a / w < 1 <<< bl
  exact Nat.lt_of_le_of_lt (Nat.div_le_div_right hle) h16

/-- Witness for C4 on a concrete unreduced Integer. -/
theorem claim_C4_witness : rnsW.reduceQuotientAssert aW :=
  claim_C4_reduce_quotient_bound wW nW blW (by decide) aW (by decide) (by decide)

/-- C1: for operands with values at most `max_operand`, `Rns::mul` returns a
context whose result is the product modulo the wrong modulus, and whose
quotient is the `Long` variant holding the Integer decomposition of the true
quotient, so that `a*b = q*wrong_modulus + result` over the integers. -/
theorem claim_C1_mul_correct (w n bl : Nat) (hca : ConstructAsserts w n bl)
    (hw : 2 ≤ w) (hn : 2 ^ bl ≤ n) (a b : Integer)
    (ha : (Rns.construct w n bl).value a ≤ maxOperand w n bl)
    (hb : (Rns.construct w n bl).value b ≤ maxOperand w n bl) :
    ((Rns.construct w n bl).mul a b).result.value
      = (Rns.construct w n bl).value a * (Rns.construct w n bl).value b % w ∧
    ((Rns.construct w n bl).mul a b).quotient = Quotient.Long ((Rns.construct w n bl).newFromBig
      ((Rns.construct w n bl).value a * (Rns.construct w n bl).value b / w)) ∧
    (Rns.construct w n bl).value a * (Rns.construct w n bl).value b
      = ((Rns.construct w n bl).newFromBig
          ((Rns.construct w n bl).value a * (Rns.construct w n bl).value b / w)).value * w
        + ((Rns.construct w n bl).mul a b).result.value := by
  have hq : (Rns.construct w n bl).value a * (Rns.construct w n bl).value b / w
      < 2 ^ (bl * 4) :=
    mul_quotient_lt hca hw (Nat.mul_le_mul ha hb)
  have hr : (Rns.construct w n bl).value a * (Rns.construct w n bl).value b % w
      < 2 ^ (bl * 4) := by
    obtain ⟨h1, -, -, -, -, -, -, -, -, -, -, -, -, -, -, -, -, -, -, -, -, -⟩ := hca
    have hwlt : w < 2 ^ (bl * 4) := by rw [← binaryModulus_eq]; exact h1
    exact lt_trans (Nat.mod_lt _ (by omega)) hwlt
  have hresult : ((Rns.construct w n bl).mul a b).result.value
      = (Rns.construct w n bl).value a * (Rns.construct w n bl).value b % w := by
    show ((Rns.construct w n bl).newFromBig _).value = _
    exact construct_newFromBig_value hn hr
  refine ⟨hresult, rfl, ?_⟩
  rw [hresult, construct_newFromBig_value hn hq]
  have hdm := Nat.div_add_mod ((Rns.construct w n bl).value a * (Rns.construct w n bl).value b) w
  calc (Rns.construct w n bl).value a * (Rns.construct w n bl).value b
      = w * ((Rns.construct w n bl).value a * (Rns.construct w n bl).value b / w)
        + (Rns.construct w n bl).value a * (Rns.construct w n bl).value b % w := hdm.symm
    _ = (Rns.construct w n bl).value a * (Rns.construct w n bl).value b / w * w
        + (Rns.construct w n bl).value a * (Rns.construct w n bl).value b % w := by ring

/-- Witness for C1 on concrete operands. -/
theorem claim_C1_witness :
    (rnsW.mul bW cW).result.value = rnsW.value bW * rnsW.value cW % wW ∧
    (rnsW.mul bW cW).quotient
      = Quotient.Long (rnsW.newFromBig (rnsW.value bW * rnsW.value cW / wW)) ∧
    rnsW.value bW * rnsW.value cW
      = (rnsW.newFromBig (rnsW.value bW * rnsW.value cW / wW)).value * wW
        + (rnsW.mul bW cW).result.value :=
  claim_C1_mul_correct wW nW blW (by decide) (by decide) (by decide) bW cW (by decide)
    (by decide)

/-! ### The convolution terms of `Rns::mul` -/

/-- C7 (counterexample): the `t` vector of `Rns::mul` has only four entries,
so it does not contain the schoolbook convolution terms for
`k = 4, 5, 6` claimed by the specification; at a concrete input the term for
`k = 6` is nonzero while `t` has no such entry. -/
theorem claim_C7_counterexample :
    (rnsW.mul bW cW).t.length = 4 ∧ (rnsW.mul bW cW).t.getD 6 0 = 0 ∧
    specConvolutionTerm nW bW.limbs cW.limbs (negativeWrongModulusDecomposed wW nW blW)
      (rnsW.newFromBig (rnsW.value bW * rnsW.value cW / wW)).limbs 6 ≠ 0 := by
  decide

/-- One convolution accumulation step evaluates to a plain sum modulo `n`. -/
theorem step_eval (n acc x y u v : Nat) :
    nadd n (nadd n acc (nmul n x y)) (nmul n u v) = (acc + x * y + u * v) % n := by
  unfold nadd nmul
  conv_lhs => rw [Nat.add_mod_mod]
  rw [Nat.mod_add_mod]
  conv_lhs => rw [show acc + x * y % n + u * v = x * y % n + (acc + u * v) by ring]
  rw [Nat.mod_add_mod]
  congr 1
  ring

/-- Folding the native-field additions of one convolution entry equals the
plain sum reduced modulo the native modulus. -/
theorem foldl_nadd_chain (n : Nat) (A B P Q : Nat → Nat) :
    ∀ (l : List Nat) (acc : Nat), l ≠ [] →
      List.foldl (fun acc i => nadd n (nadd n acc (nmul n (A i) (B i))) (nmul n (P i) (Q i))) acc l
        = (acc + (l.map (fun i => A i * B i + P i * Q i)).sum) % n := by
  intro l
  induction l with
  | nil => intro acc h; exact absurd rfl h
  | cons x xs ih =>
    intro acc h
    rw [List.foldl_cons]
    by_cases hxs : xs = []
    · subst hxs
      simp only [List.foldl_nil, List.map_cons, List.map_nil, List.sum_cons, List.sum_nil]
      rw [step_eval]
      congr 1
      ring
    · rw [ih _ hxs, step_eval]
      simp only [List.map_cons, List.sum_cons]
      rw [Nat.mod_add_mod]
      congr 1
      ring

/-- C7 (amended): the `t` vector in the context returned by `Rns::mul` has
exactly `NUMBER_OF_LIMBS = 4` entries, and for every `k < 4` the entry
`t[k]` is the schoolbook convolution term
`sum over i + j = k of a.limb(i)*b.limb(j) + negative_modulus[i]*quotient.limb(j)`
evaluated in the native field; the terms for `k = 4..6` are not materialized. -/
theorem claim_C7_mulT_amended (w n bl : Nat) (a b : Integer) :
    ((Rns.construct w n bl).mul a b).t.length = 4 ∧
    ∀ k, k < 4 → ((Rns.construct w n bl).mul a b).t.getD k 0
      = specConvolutionTerm n a.limbs b.limbs (negativeWrongModulusDecomposed w n bl)
          ((Rns.construct w n bl).newFromBig
            ((Rns.construct w n bl).value a * (Rns.construct w n bl).value b / w)).limbs k := by
  have ht : ((Rns.construct w n bl).mul a b).t
      = (Rns.construct w n bl).mulT a b ((Rns.construct w n bl).newFromBig
        ((Rns.construct w n bl).value a * (Rns.construct w n bl).value b / w)) := rfl
  rw [ht]
  unfold Rns.mulT
  have hrange : List.range numberOfLimbs = [0, 1, 2, 3] := rfl
  rw [hrange, construct_nativeModulus, construct_negativeWrongModulusDecomposed]
  constructor
  · simp
  · intro k hk
    interval_cases k <;>
    · simp only [List.map_cons, List.map_nil, List.getD_cons_zero, List.getD_cons_succ]
      rw [foldl_nadd_chain n _ _ _ _ _ 0 (by simp)]
      simp only [specConvolutionTerm, Integer.limbValue, Nat.zero_add]

/-! ### The base auxiliary integer -/

set_option maxHeartbeats 2000000 in
/-- Structure of `calculate_base_aux`: under the size conditions satisfied by
every sound configuration (the wrong modulus uses the top limb, and limbs fit
the native field with two bits to spare), the adjusted limbs are explicit,
positive, below the native modulus, and compose to exactly `2 * w`. -/
theorem calculateBaseAux_spec {w n bl : Nat} (hbl : 0 < bl) (hw3 : 2 ^ (bl * 3) ≤ w)
    (hwT : w < 2 ^ (bl * 4)) (hn : 2 ^ (bl + 2) ≤ n) :
    ∃ l0 l1 l2 l3 : Nat, (calculateBaseAux w n bl).limbs = [l0, l1, l2, l3] ∧
      1 ≤ l0 ∧ 1 ≤ l1 ∧ 1 ≤ l2 ∧ 1 ≤ l3 ∧ l0 < n ∧ l1 < n ∧ l2 < n ∧ l3 < n ∧
      compose [l0, l1, l2, l3] bl = 2 * w := by
  have hPn : 2 ^ bl ≤ n := le_trans (Nat.pow_le_pow_right (by omega) (by omega)) hn
  have h4P : 2 ^ bl * 4 ≤ n := by
    have : (2 : Nat) ^ (bl + 2) = 2 ^ bl * 4 := by rw [pow_add]; norm_num
    omega
  have hP2 : 2 ≤ 2 ^ bl := by
    calc (2 : Nat) = 2 ^ 1 := by norm_num
      _ ≤ 2 ^ bl := Nat.pow_le_pow_right (by omega) (by omega)
  have hr : 2 ^ bl % n = 2 ^ bl := Nat.mod_eq_of_lt (by omega)
  obtain ⟨w0, w1, w2, w3, hwl, hb0, hb1, hb2, hb3, hsum⟩ := decompose_four_spec hPn w hwT
  have hw3ge : 1 ≤ w3 := by
    by_contra hc
    have hw30 : w3 = 0 := by omega
    subst hw30
    have hP3 : (2 : Nat) ^ (bl * 3) = 2 ^ bl * (2 ^ bl * 2 ^ bl) := by
      rw [show bl * 3 = bl + (bl + bl) by ring, pow_add, pow_add]
    nlinarith [hsum]
  have hsumZ : (w0 : ℤ) + 2 ^ bl * ((w1 : ℤ) + 2 ^ bl * ((w2 : ℤ) + 2 ^ bl * w3)) = w := by
    exact_mod_cast hsum
  have hba : (calculateBaseAux w n bl).limbs = List.map (fun limb => limb % n)
      (List.foldl (baseAuxStep bl (2 ^ bl % n))
        (List.map (fun limb => limb <<< 1) (decompose n w numberOfLimbs bl)) [0, 1, 2]) := rfl
  rw [show numberOfLimbs = 4 from rfl, hwl, hr] at hba
  simp only [List.map_cons, List.map_nil, Nat.shiftLeft_eq, pow_one, List.foldl_cons,
    List.foldl_nil] at hba
  by_cases hc2 : bigBits (w2 * 2) < bl + 1
  · by_cases hc1 : bigBits (w1 * 2) < bl + 1
    · by_cases hc0 : bigBits (w0 * 2) < bl + 1
      · simp [baseAuxStep, numberOfLimbs, hc2, hc1, hc0] at hba
        rw [Nat.mod_eq_of_lt (by omega : _ < n), Nat.mod_eq_of_lt (by omega : _ < n),
          Nat.mod_eq_of_lt (by omega : _ < n), Nat.mod_eq_of_lt (by omega : _ < n)] at hba
        refine ⟨_, _, _, _, hba, by omega, by omega, by omega, by omega, by omega,
          by omega, by omega, by omega, ?_⟩
        rw [compose_four]
        zify [show (1:Nat) ≤ w1 * 2 + 2 ^ bl by omega, show (1:Nat) ≤ w2 * 2 + 2 ^ bl by omega, show (1:Nat) ≤ w3 * 2 by omega]
        linear_combination 2 * hsumZ
      · simp [baseAuxStep, numberOfLimbs, hc2, hc1, hc0] at hba
        have hd0 : 2 ^ bl ≤ w0 * 2 := by
          have h := mt (bigBits_le_iff (w0 * 2) bl).mpr (by omega)
          omega
        rw [Nat.mod_eq_of_lt (by omega : _ < n), Nat.mod_eq_of_lt (by omega : _ < n),
          Nat.mod_eq_of_lt (by omega : _ < n), Nat.mod_eq_of_lt (by omega : _ < n)] at hba
        refine ⟨_, _, _, _, hba, by omega, by omega, by omega, by omega, by omega,
          by omega, by omega, by omega, ?_⟩
        rw [compose_four]
        zify [show (1:Nat) ≤ w2 * 2 + 2 ^ bl by omega, show (1:Nat) ≤ w3 * 2 by omega]
        linear_combination 2 * hsumZ
    · by_cases hc0 : bigBits (w0 * 2) < bl + 1
      · simp [baseAuxStep, numberOfLimbs, hc2, hc1, hc0] at hba
        have hd1 : 2 ^ bl ≤ w1 * 2 := by
          have h := mt (bigBits_le_iff (w1 * 2) bl).mpr (by omega)
          omega
        rw [Nat.mod_eq_of_lt (by omega : _ < n), Nat.mod_eq_of_lt (by omega : _ < n),
          Nat.mod_eq_of_lt (by omega : _ < n), Nat.mod_eq_of_lt (by omega : _ < n)] at hba
        refine ⟨_, _, _, _, hba, by omega, by omega, by omega, by omega, by omega,
          by omega, by omega, by omega, ?_⟩
        rw [compose_four]
        zify [show (1:Nat) ≤ w1 * 2 by omega, show (1:Nat) ≤ w3 * 2 by omega]
        linear_combination 2 * hsumZ
      · simp [baseAuxStep, numberOfLimbs, hc2, hc1, hc0] at hba
        have hd1 : 2 ^ bl ≤ w1 * 2 := by
          have h := mt (bigBits_le_iff (w1 * 2) bl).mpr (by omega)
          omega
        have hd0 : 2 ^ bl ≤ w0 * 2 := by
          have h := mt (bigBits_le_iff (w0 * 2) bl).mpr (by omega)
          omega
        rw [Nat.mod_eq_of_lt (by omega : _ < n), Nat.mod_eq_of_lt (by omega : _ < n),
          Nat.mod_eq_of_lt (by omega : _ < n), Nat.mod_eq_of_lt (by omega : _ < n)] at hba
        refine ⟨_, _, _, _, hba, by omega, by omega, by omega, by omega, by omega,
          by omega, by omega, by omega, ?_⟩
        rw [compose_four]
        zify [show (1:Nat) ≤ w3 * 2 by omega]
        linear_combination 2 * hsumZ
  · by_cases hc1 : bigBits (w1 * 2) < bl + 1
    · by_cases hc0 : bigBits (w0 * 2) < bl + 1
      · simp [baseAuxStep, numberOfLimbs, hc2, hc1, hc0] at hba
        have hd2 : 2 ^ bl ≤ w2 * 2 := by
          have h := mt (bigBits_le_iff (w2 * 2) bl).mpr (by omega)
          omega
        rw [Nat.mod_eq_of_lt (by omega : _ < n), Nat.mod_eq_of_lt (by omega : _ < n),
          Nat.mod_eq_of_lt (by omega : _ < n), Nat.mod_eq_of_lt (by omega : _ < n)] at hba
        refine ⟨_, _, _, _, hba, by omega, by omega, by omega, by omega, by omega,
          by omega, by omega, by omega, ?_⟩
        rw [compose_four]
        zify [show (1:Nat) ≤ w1 * 2 + 2 ^ bl by omega, show (1:Nat) ≤ w2 * 2 by omega]
        linear_combination 2 * hsumZ
      · simp [baseAuxStep, numberOfLimbs, hc2, hc1, hc0] at hba
        have hd2 : 2 ^ bl ≤ w2 * 2 := by
          have h := mt (bigBits_le_iff (w2 * 2) bl).mpr (by omega)
          omega
        have hd0 : 2 ^ bl ≤ w0 * 2 := by
          have h := mt (bigBits_le_iff (w0 * 2) bl).mpr (by omega)
          omega
        rw [Nat.mod_eq_of_lt (by omega : _ < n), Nat.mod_eq_of_lt (by omega : _ < n),
          Nat.mod_eq_of_lt (by omega : _ < n), Nat.mod_eq_of_lt (by omega : _ < n)] at hba
        refine ⟨_, _, _, _, hba, by omega, by omega, by omega, by omega, by omega,
          by omega, by omega, by omega, ?_⟩
        rw [compose_four]
        zify [show (1:Nat) ≤ w2 * 2 by omega]
        linear_combination 2 * hsumZ
    · by_cases hc0 : bigBits (w0 * 2) < bl + 1
      · simp [baseAuxStep, numberOfLimbs, hc2, hc1, hc0] at hba
        have hd2 : 2 ^ bl ≤ w2 * 2 := by
          have h := mt (bigBits_le_iff (w2 * 2) bl).mpr (by omega)
          omega
        have hd1 : 2 ^ bl ≤ w1 * 2 := by
          have h := mt (bigBits_le_iff (w1 * 2) bl).mpr (by omega)
          omega
        rw [Nat.mod_eq_of_lt (by omega : _ < n), Nat.mod_eq_of_lt (by omega : _ < n),
          Nat.mod_eq_of_lt (by omega : _ < n), Nat.mod_eq_of_lt (by omega : _ < n)] at hba
        refine ⟨_, _, _, _, hba, by omega, by omega, by omega, by omega, by omega,
          by omega, by omega, by omega, ?_⟩
        rw [compose_four]
        zify [show (1:Nat) ≤ w1 * 2 by omega]
        linear_combination 2 * hsumZ
      · simp [baseAuxStep, numberOfLimbs, hc2, hc1, hc0] at hba
        have hd2 : 2 ^ bl ≤ w2 * 2 := by
          have h := mt (bigBits_le_iff (w2 * 2) bl).mpr (by omega)
          omega
        have hd1 : 2 ^ bl ≤ w1 * 2 := by
          have h := mt (bigBits_le_iff (w1 * 2) bl).mpr (by omega)
          omega
        have hd0 : 2 ^ bl ≤ w0 * 2 := by
          have h := mt (bigBits_le_iff (w0 * 2) bl).mpr (by omega)
          omega
        rw [Nat.mod_eq_of_lt (by omega : _ < n), Nat.mod_eq_of_lt (by omega : _ < n),
          Nat.mod_eq_of_lt (by omega : _ < n), Nat.mod_eq_of_lt (by omega : _ < n)] at hba
        refine ⟨_, _, _, _, hba, by omega, by omega, by omega, by omega, by omega,
          by omega, by omega, by omega, ?_⟩
        rw [compose_four]
        zify
        linear_combination 2 * hsumZ

/-- C8: the base auxiliary integer composes to exactly `2 * wrong_modulus`
(the borrow/add limb adjustments never change the composed value), hence its
value is divisible by the wrong modulus and exceeds `max_remainder`. -/
theorem claim_C8_baseAux (w n bl : Nat) (hbl : 0 < bl) (hw3 : 2 ^ (bl * 3) ≤ w)
    (hwT : w < 2 ^ (bl * 4)) (hn : 2 ^ (bl + 2) ≤ n) :
    (calculateBaseAux w n bl).value = 2 * w ∧
    (calculateBaseAux w n bl).value % w = 0 ∧
    (calculateBaseAux w n bl).value > maxRemainder w := by
  have hw : 0 < w := lt_of_lt_of_le (Nat.two_pow_pos (bl * 3)) hw3
  obtain ⟨l0, l1, l2, l3, hl, -, -, -, -, -, -, -, -, hcomp⟩ :=
    calculateBaseAux_spec hbl hw3 hwT hn
  have hbll : (calculateBaseAux w n bl).bitLenLimb = bl := rfl
  have hv : (calculateBaseAux w n bl).value = 2 * w := by
    unfold Integer.value
    rw [hl, hbll]
    exact hcomp
  refine ⟨hv, by rw [hv]; exact Nat.mul_mod_left 2 w, ?_⟩
  rw [hv]
  have := maxRemainder_lt_two_mul hw
  omega

/-- Witness for C8 at the concrete configuration. -/
theorem claim_C8_witness :
    (calculateBaseAux wW nW blW).value = 2 * wW ∧
    (calculateBaseAux wW nW blW).value % wW = 0 ∧
    (calculateBaseAux wW nW blW).value > maxRemainder wW :=
  claim_C8_baseAux wW nW blW (by decide) (by decide) (by decide) (by decide)

/-! ### `make_aux` -/

theorem shiftsNeededAux_le {fuel : Nat} : ∀ {maxVal aux : Nat}, 1 ≤ aux →
    maxVal ≤ aux <<< fuel → maxVal ≤ aux <<< shiftsNeededAux fuel maxVal aux := by
  induction fuel with
  | zero =>
    intro maxVal aux haux hfit
    simpa [shiftsNeededAux] using hfit
  | succ f ih =>
    intro maxVal aux haux hfit
    rw [shiftsNeededAux]
    by_cases h : maxVal ≤ aux
    · rw [if_pos h]
      simpa using h
    · rw [if_neg h]
      have hfit2 : maxVal ≤ (aux <<< 1) <<< f := by
        simp only [Nat.shiftLeft_eq, pow_one] at hfit ⊢
        calc maxVal ≤ aux * 2 ^ (f + 1) := hfit
          _ = aux * 2 * 2 ^ f := by rw [pow_succ]; ring
      have hres := ih (by simp only [Nat.shiftLeft_eq, pow_one]; omega) hfit2
      calc maxVal ≤ (aux <<< 1) <<< shiftsNeededAux f maxVal (aux <<< 1) := hres
        _ = aux <<< (shiftsNeededAux f maxVal (aux <<< 1) + 1) := by
          simp only [Nat.shiftLeft_eq, pow_one, pow_succ]
          ring

theorem shiftsNeeded_le (maxVal aux : Nat) (haux : 1 ≤ aux) :
    maxVal ≤ aux <<< shiftsNeeded maxVal aux := by
  apply shiftsNeededAux_le haux
  rw [Nat.shiftLeft_eq]
  have h1 := lt_two_pow_bigBits maxVal
  have h2 : (2 : Nat) ^ bigBits maxVal ≤ 2 ^ (bigBits maxVal + 1) :=
    Nat.pow_le_pow_right (by omega) (by omega)
  have h3 : (2 : Nat) ^ (bigBits maxVal + 1) ≤ aux * 2 ^ (bigBits maxVal + 1) :=
    Nat.le_mul_of_pos_left _ haux
  omega

theorem shiftLeft_le_shiftLeft {a k m : Nat} (h : k ≤ m) : a <<< k ≤ a <<< m := by
  rw [Nat.shiftLeft_eq, Nat.shiftLeft_eq]
  exact Nat.mul_le_mul_left a (Nat.pow_le_pow_right (by omega) h)

theorem makeAux_limbs (r : Rns) (maxVals : List Nat) :
    (r.makeAux maxVals).limbs = r.baseAux.limbs.map
      (fun limb => (limb <<< r.makeAuxShift maxVals) % r.nativeModulus) := rfl

theorem makeAux_bitLenLimb (r : Rns) (maxVals : List Nat) :
    (r.makeAux maxVals).bitLenLimb = r.bitLenLimb := rfl

theorem makeAuxShift_eq (r : Rns) (maxVals : List Nat) :
    r.makeAuxShift maxVals
      = max (max (max (max 0 (shiftsNeeded (maxVals.getD 0 0) (r.baseAux.limbs.getD 0 0)))
          (shiftsNeeded (maxVals.getD 1 0) (r.baseAux.limbs.getD 1 0)))
          (shiftsNeeded (maxVals.getD 2 0) (r.baseAux.limbs.getD 2 0)))
          (shiftsNeeded (maxVals.getD 3 0) (r.baseAux.limbs.getD 3 0)) := rfl

/-- C9: the auxiliary Integer built by `Rns::make_aux` dominates every
per-limb bound, its value is divisible by the wrong modulus (being `base_aux`
scaled by a power of two), and consequently no per-limb subtraction
`a.limb - b.limb + aux.limb` in `IntegerChip::_sub` can go below zero when
`b`'s limbs respect the declared bounds (provided the shifted limbs still fit
the native field). -/
theorem claim_C9_makeAux (w n bl : Nat) (hbl : 0 < bl) (hw3 : 2 ^ (bl * 3) ≤ w)
    (hwT : w < 2 ^ (bl * 4)) (hn : 2 ^ (bl + 2) ≤ n) (maxVals : List Nat)
    (hfit : ∀ i, i < 4 → (calculateBaseAux w n bl).limbs.getD i 0
      <<< (Rns.construct w n bl).makeAuxShift maxVals < n) :
    (∀ i, i < 4 → maxVals.getD i 0 ≤ ((Rns.construct w n bl).makeAux maxVals).limbValue i) ∧
    ((Rns.construct w n bl).makeAux maxVals).value % w = 0 ∧
    (∀ i, i < 4 → ∀ ai bi : Nat, bi ≤ maxVals.getD i 0 →
      0 ≤ (ai : Int) - (bi : Int)
        + (((Rns.construct w n bl).makeAux maxVals).limbValue i : Int)) := by
  obtain ⟨l0, l1, l2, l3, hl, h1l0, h1l1, h1l2, h1l3, -, -, -, -, hcomp⟩ :=
    calculateBaseAux_spec hbl hw3 hwT hn
  have hbaux : (Rns.construct w n bl).baseAux.limbs = [l0, l1, l2, l3] := by
    rw [construct_baseAux]
    exact hl
  rw [hl] at hfit
  have hlimbs : ((Rns.construct w n bl).makeAux maxVals).limbs
      = [l0 <<< (Rns.construct w n bl).makeAuxShift maxVals % n,
        l1 <<< (Rns.construct w n bl).makeAuxShift maxVals % n,
        l2 <<< (Rns.construct w n bl).makeAuxShift maxVals % n,
        l3 <<< (Rns.construct w n bl).makeAuxShift maxVals % n] := by
    rw [makeAux_limbs, hbaux, construct_nativeModulus]
    rfl
  have hms : ∀ i, i < 4 → shiftsNeeded (maxVals.getD i 0) ([l0, l1, l2, l3].getD i 0)
      ≤ (Rns.construct w n bl).makeAuxShift maxVals := by
    intro i hi
    have hexp := makeAuxShift_eq (Rns.construct w n bl) maxVals
    rw [hbaux] at hexp
    interval_cases i <;> omega
  have hlv : ∀ i, i < 4 →
      maxVals.getD i 0 ≤ ((Rns.construct w n bl).makeAux maxVals).limbValue i := by
    intro i hi
    have hpos : 1 ≤ [l0, l1, l2, l3].getD i 0 := by
      interval_cases i <;> simp only [List.getD_cons_zero, List.getD_cons_succ] <;> omega
    have hstep := shiftsNeeded_le (maxVals.getD i 0) ([l0, l1, l2, l3].getD i 0) hpos
    have hmono := shiftLeft_le_shiftLeft (a := [l0, l1, l2, l3].getD i 0) (hms i hi)
    have hfi := hfit i hi
    have hmodeq : [l0, l1, l2, l3].getD i 0 <<< (Rns.construct w n bl).makeAuxShift maxVals % n
        = [l0, l1, l2, l3].getD i 0 <<< (Rns.construct w n bl).makeAuxShift maxVals :=
      Nat.mod_eq_of_lt hfi
    unfold Integer.limbValue
    rw [hlimbs]
    interval_cases i <;>
      simp only [List.getD_cons_zero, List.getD_cons_succ] at hstep hmono hmodeq ⊢ <;> omega
  refine ⟨hlv, ?_, ?_⟩
  · have hm0 := Nat.mod_eq_of_lt (by simpa using hfit 0 (by omega))
    have hm1 := Nat.mod_eq_of_lt (by simpa using hfit 1 (by omega))
    have hm2 := Nat.mod_eq_of_lt (by simpa using hfit 2 (by omega))
    have hm3 := Nat.mod_eq_of_lt (by simpa using hfit 3 (by omega))
    have hv : ((Rns.construct w n bl).makeAux maxVals).value
        = 2 ^ (Rns.construct w n bl).makeAuxShift maxVals * (2 * w) := by
      unfold Integer.value
      rw [hlimbs, makeAux_bitLenLimb, construct_bitLenLimb]
      simp only [List.getD_cons_zero, List.getD_cons_succ] at hm0 hm1 hm2 hm3
      rw [hm0, hm1, hm2, hm3, compose_four]
      rw [← hcomp, compose_four, Nat.shiftLeft_eq, Nat.shiftLeft_eq, Nat.shiftLeft_eq,
        Nat.shiftLeft_eq]
      ring
    rw [hv, show 2 ^ (Rns.construct w n bl).makeAuxShift maxVals * (2 * w)
      = w * (2 ^ (Rns.construct w n bl).makeAuxShift maxVals * 2) by ring]
    exact Nat.mul_mod_right _ _
  · intro i hi ai bi hbi
    have := hlv i hi
    omega

/-- Witness for C9 at the concrete configuration with the unreduced-limb
bounds. -/
theorem claim_C9_witness :
    (∀ i, i < 4 → (List.replicate 4 (maxUnreducedLimb blW)).getD i 0
      ≤ (rnsW.makeAux (List.replicate 4 (maxUnreducedLimb blW))).limbValue i) ∧
    (rnsW.makeAux (List.replicate 4 (maxUnreducedLimb blW))).value % wW = 0 ∧
    (∀ i, i < 4 → ∀ ai bi : Nat, bi ≤ (List.replicate 4 (maxUnreducedLimb blW)).getD i 0 →
      0 ≤ (ai : Int) - (bi : Int)
        + ((rnsW.makeAux (List.replicate 4 (maxUnreducedLimb blW))).limbValue i : Int)) :=
  claim_C9_makeAux wW nW blW (by decide) (by decide) (by decide) (by decide)
    (List.replicate 4 (maxUnreducedLimb blW)) (by decide)

/-! ### Inversion -/

theorem invert_eq (r : Rns) (winv : Nat → Option Nat) (a : Integer) :
    r.invert winv a = (winv (r.value a % r.wrongModulus)).map (fun i => r.newFromBig i) := rfl

/-- C6 (counterexample): an Integer of value exactly the wrong modulus lies
in the remainder range and is nonzero, yet `Rns::invert` returns `none`,
because `big_to_fe` reduces the value into the wrong field first. -/
theorem claim_C6_counterexample :
    WInvertSpec 13 winv13 ∧
    rns13.value (rns13.newFromBig 13) = 13 ∧
    rns13.value (rns13.newFromBig 13) ≤ rns13.maxRemainder ∧
    rns13.invert winv13 (rns13.newFromBig 13) = none := by
  decide

/-- C6 (amended): for an Integer `a` in the remainder range, `Rns::invert`
returns `some inv` with `inv.value * a.value = 1 (mod wrong_modulus)` exactly
when `a.value` is not divisible by the wrong modulus, and returns `none`
(the no-inverse signal) when it is divisible — in particular at value zero,
but also at value equal to the modulus itself. -/
theorem claim_C6_invert_amended (w n bl : Nat) (winv : Nat → Option Nat)
    (hspec : WInvertSpec w winv) (hw : 0 < w) (hn : 2 ^ bl ≤ n)
    (hwT : w ≤ 2 ^ (bl * 4)) (a : Integer)
    (ha : (Rns.construct w n bl).value a ≤ (Rns.construct w n bl).maxRemainder) :
    ((Rns.construct w n bl).value a % w ≠ 0 →
      (Rns.construct w n bl).invert winv a ≠ none ∧
      ∀ inv, (Rns.construct w n bl).invert winv a = some inv →
        inv.value * (Rns.construct w n bl).value a % w = 1) ∧
    ((Rns.construct w n bl).value a % w = 0 →
      (Rns.construct w n bl).invert winv a = none) := by
  have hxlt : (Rns.construct w n bl).value a % w < w := Nat.mod_lt _ hw
  have hsx := hspec ((Rns.construct w n bl).value a % w) hxlt
  have hinv := invert_eq (Rns.construct w n bl) winv a
  rw [construct_wrongModulus] at hinv
  constructor
  · intro hxne
    rcases hsx with ⟨h0, -⟩ | ⟨-, hne, hltw, hprod⟩
    · exact absurd h0 hxne
    constructor
    · rw [hinv]
      cases hwx : winv ((Rns.construct w n bl).value a % w) with
      | none => exact absurd hwx hne
      | some y => simp
    · intro inv hsome
      cases hwx : winv ((Rns.construct w n bl).value a % w) with
      | none => exact absurd hwx hne
      | some y =>
        rw [hinv, hwx] at hsome
        simp only [Option.map, Option.some.injEq] at hsome
        rw [hwx] at hltw hprod
        simp only [Option.getD_some] at hltw hprod
        have hval : inv.value = y := by
          rw [← hsome]
          exact construct_newFromBig_value hn (lt_of_lt_of_le hltw hwT)
        rw [hval]
        calc y * (Rns.construct w n bl).value a % w
            = y % w * ((Rns.construct w n bl).value a % w) % w := by
              rw [Nat.mul_mod]
          _ = y * ((Rns.construct w n bl).value a % w) % w := by
              rw [Nat.mod_eq_of_lt hltw]
          _ = (Rns.construct w n bl).value a % w * y % w := by rw [Nat.mul_comm]
          _ = 1 := hprod
  · intro hx0
    rcases hsx with ⟨-, hnone⟩ | ⟨hne0, -, -, -⟩
    · rw [hinv, hnone]
      rfl
    · exact absurd hx0 hne0

/-- Witness for the amended C6 at a concrete invertible input. -/
theorem claim_C6_witness :
    rns13.invert winv13 (rns13.newFromBig 2) ≠ none ∧
    (rns13.newFromBig 7).value * rns13.value (rns13.newFromBig 2) % 13 = 1 := by
  have h := claim_C6_invert_amended 13 17 4 winv13 (by decide) (by decide) (by decide)
    (by decide) (rns13.newFromBig 2) (by decide)
  exact ⟨(h.1 (by decide)).1, (h.1 (by decide)).2 (rns13.newFromBig 7) (by decide)⟩

/-! ### The residues sanity check for `reduce` and `mul` -/

theorem reduce_t_eq (r : Rns) (a : Integer) :
    (r.reduce a).t = List.zipWith (fun ai pi => nadd r.nativeModulus ai
      (nmul r.nativeModulus pi (r.value a / r.wrongModulus % r.nativeModulus)))
      a.limbs r.negativeWrongModulusDecomposed := rfl

theorem reduce_result_eq (r : Rns) (a : Integer) :
    (r.reduce a).result = r.newFromBig (r.value a % r.wrongModulus) := rfl

theorem mul_result_eq (r : Rns) (a b : Integer) :
    (r.mul a b).result = r.newFromBig (r.value a * r.value b % r.wrongModulus) := rfl

theorem mul_t_eq (r : Rns) (a b : Integer) :
    (r.mul a b).t = r.mulT a b (r.newFromBig (r.value a * r.value b / r.wrongModulus)) := rfl

theorem newFromBig_limbs (r : Rns) (e : Nat) :
    (r.newFromBig e).limbs = decompose r.nativeModulus e numberOfLimbs r.bitLenLimb := rfl

theorem residues_fst (r : Rns) (t : List Nat) (res : Integer) :
    (r.residues t res).1 = nsub r.nativeModulus (nsub r.nativeModulus
      (nadd r.nativeModulus (t.getD 0 0) (nmul r.nativeModulus r.leftShifterR (t.getD 1 0)))
      (res.limbValue 0)) (nmul r.nativeModulus r.leftShifterR (res.limbValue 1)) := rfl

theorem residues_snd (r : Rns) (t : List Nat) (res : Integer) :
    (r.residues t res).2.1 = nsub r.nativeModulus (nsub r.nativeModulus
      (nadd r.nativeModulus (t.getD 2 0) (nmul r.nativeModulus r.leftShifterR (t.getD 3 0)))
      (res.limbValue 2)) (nmul r.nativeModulus r.leftShifterR (res.limbValue 3)) := rfl

theorem twoLimbMask_eq (bl : Nat) : twoLimbMask bl = 2 ^ (bl * 2) - 1 := by
  unfold twoLimbMask
  rw [Nat.shiftLeft_eq, one_mul]

theorem getD_four_0 {x0 x1 x2 x3 : Nat} : ([x0, x1, x2, x3] : List Nat).getD 0 0 = x0 := rfl

theorem getD_four_1 {x0 x1 x2 x3 : Nat} : ([x0, x1, x2, x3] : List Nat).getD 1 0 = x1 := rfl

theorem getD_four_2 {x0 x1 x2 x3 : Nat} : ([x0, x1, x2, x3] : List Nat).getD 2 0 = x2 := rfl

theorem getD_four_3 {x0 x1 x2 x3 : Nat} : ([x0, x1, x2, x3] : List Nat).getD 3 0 = x3 := rfl

/-- The quotient of `reduce` on an Integer with limbs at most
`max_unreduced_limb` is below `2^bit_len_limb` (the content of the final
construction-time self-test). -/
theorem reduce_quotient_lt {w n bl : Nat}
    (h16 : maxWithMaxUnreducedLimbs bl / w < 1 <<< bl) {a : Integer}
    (hlen : a.limbs.length = 4) (hbnd : ∀ l ∈ a.limbs, l ≤ maxUnreducedLimb bl) :
    (Rns.construct w n bl).value a / w < 2 ^ bl := by
  obtain ⟨a0, a1, a2, a3, hl⟩ := list_four_of_length hlen
  have hb0 : a0 ≤ maxUnreducedLimb bl := hbnd a0 (by rw [hl]; simp)
  have hb1 : a1 ≤ maxUnreducedLimb bl := hbnd a1 (by rw [hl]; simp)
  have hb2 : a2 ≤ maxUnreducedLimb bl := hbnd a2 (by rw [hl]; simp)
  have hb3 : a3 ≤ maxUnreducedLimb bl := hbnd a3 (by rw [hl]; simp)
  have hva : (Rns.construct w n bl).value a = compose [a0, a1, a2, a3] bl := by
    unfold Rns.value
    rw [construct_bitLenLimb, hl]
  have hle : (Rns.construct w n bl).value a ≤ maxWithMaxUnreducedLimbs bl := by
    rw [hva, show maxWithMaxUnreducedLimbs bl
      = compose [maxUnreducedLimb bl, maxUnreducedLimb bl, maxUnreducedLimb bl,
        maxUnreducedLimb bl] bl from rfl]
    exact compose_le_compose4 hb0 hb1 hb2 hb3
  have := Nat.lt_of_le_of_lt (Nat.div_le_div_right hle) h16
  rwa [Nat.shiftLeft_eq, one_mul] at this

/-- The sanity block of `residues` holds for every `reduce` call on an
Integer with limbs at most `max_unreduced_limb`. -/
theorem reduce_residues_ok {w n bl : Nat} (hca : ConstructAsserts w n bl) (hbl : 0 < bl)
    (hodd : n % 2 = 1) (hn : 2 ^ bl ≤ n) (hw : 0 < w)
    (hredn : (maxUnreducedLimb bl + 2 ^ bl * 2 ^ bl) * (2 + 2 * 2 ^ bl) < n)
    (a : Integer) (hlen : a.limbs.length = 4)
    (hbnd : ∀ l ∈ a.limbs, l ≤ maxUnreducedLimb bl) :
    (Rns.construct w n bl).residuesAssert ((Rns.construct w n bl).reduce a).t
      ((Rns.construct w n bl).reduce a).result := by
  obtain ⟨h1, -, -, -, -, -, -, -, -, -, -, -, -, -, -, h16, -, -, -, -, -, -⟩ := hca
  have hn0 : 0 < n := by omega
  have hwT : w < 2 ^ (bl * 4) := by rw [← binaryModulus_eq]; exact h1
  obtain ⟨a0, a1, a2, a3, hl⟩ := list_four_of_length hlen
  have hb0 : a0 ≤ maxUnreducedLimb bl := hbnd a0 (by rw [hl]; simp)
  have hb1 : a1 ≤ maxUnreducedLimb bl := hbnd a1 (by rw [hl]; simp)
  have hb2 : a2 ≤ maxUnreducedLimb bl := hbnd a2 (by rw [hl]; simp)
  have hb3 : a3 ≤ maxUnreducedLimb bl := hbnd a3 (by rw [hl]; simp)
  have hdlt : binaryModulus bl - w < 2 ^ (bl * 4) := by
    rw [binaryModulus_eq]
    have := Nat.two_pow_pos (bl * 4)
    omega
  obtain ⟨p0, p1, p2, p3, hpl, hp0, hp1, hp2, hp3, hpsum⟩ :=
    decompose_four_spec hn (binaryModulus bl - w) hdlt
  have hrlt : (Rns.construct w n bl).value a % w < 2 ^ (bl * 4) :=
    lt_trans (Nat.mod_lt _ hw) hwT
  obtain ⟨r0, r1, r2, r3, hrl, hr0, hr1, hr2, hr3, hrsum⟩ :=
    decompose_four_spec hn ((Rns.construct w n bl).value a % w) hrlt
  have hq : (Rns.construct w n bl).value a / w < 2 ^ bl := reduce_quotient_lt h16 hlen hbnd
  have hva : (Rns.construct w n bl).value a = compose [a0, a1, a2, a3] bl := by
    unfold Rns.value
    rw [construct_bitLenLimb, hl]
  rw [compose_four] at hva
  -- the t vector of reduce, explicitly
  have ht : ((Rns.construct w n bl).reduce a).t
      = [nadd n a0 (nmul n p0 ((Rns.construct w n bl).value a / w % n)),
        nadd n a1 (nmul n p1 ((Rns.construct w n bl).value a / w % n)),
        nadd n a2 (nmul n p2 ((Rns.construct w n bl).value a / w % n)),
        nadd n a3 (nmul n p3 ((Rns.construct w n bl).value a / w % n))] := by
    rw [reduce_t_eq, construct_nativeModulus, construct_wrongModulus,
      construct_negativeWrongModulusDecomposed, hl]
    rw [show negativeWrongModulusDecomposed w n bl
      = decompose n (binaryModulus bl - w) 4 bl from rfl, hpl]
    rfl
  have hres : ((Rns.construct w n bl).reduce a).result.limbs = [r0, r1, r2, r3] := by
    rw [reduce_result_eq, newFromBig_limbs, construct_nativeModulus, construct_wrongModulus,
      construct_bitLenLimb]
    rw [show numberOfLimbs = 4 from rfl]
    exact hrl
  unfold Rns.residuesAssert
  rw [residues_fst, residues_snd, construct_nativeModulus, construct_leftShifterR,
    construct_rightShifter2r, construct_twoLimbMask, twoLimbMask_eq, ht]
  simp only [Integer.limbValue, hres, getD_four_0, getD_four_1, getD_four_2, getD_four_3]
  rw [Nat.and_pow_two_sub_one_eq_mod, Nat.and_pow_two_sub_one_eq_mod]
  -- cast facts for the four t entries
  have hcast : ∀ ai pi : Nat,
      ((nadd n ai (nmul n pi ((Rns.construct w n bl).value a / w % n)) : Nat) : ZMod n)
        = ((ai + pi * ((Rns.construct w n bl).value a / w) : Nat) : ZMod n) := by
    intro ai pi
    rw [natCast_nadd, natCast_nmul, ZMod.natCast_mod]
    push_cast
    ring
  have hkey : w * ((Rns.construct w n bl).value a / w) + (Rns.construct w n bl).value a % w
      = (Rns.construct w n bl).value a := Nat.div_add_mod _ _
  have hwd : w + (binaryModulus bl - w) = 2 ^ (bl * 4) := by
    rw [binaryModulus_eq]
    omega
  -- the exact integer identity for the windows
  have hident : ((a0 + p0 * ((Rns.construct w n bl).value a / w))
        + 2 ^ bl * (a1 + p1 * ((Rns.construct w n bl).value a / w)))
      + 2 ^ (bl * 2) * ((a2 + p2 * ((Rns.construct w n bl).value a / w))
        + 2 ^ bl * (a3 + p3 * ((Rns.construct w n bl).value a / w)))
      + 2 ^ (bl * 4) * 0
      = (Rns.construct w n bl).value a / w * 2 ^ (bl * 4)
        + ((r0 + 2 ^ bl * r1) + 2 ^ (bl * 2) * (r2 + 2 ^ bl * r3)) := by
    obtain ⟨qq, hQ⟩ : ∃ x, (Rns.construct w n bl).value a / w = x := ⟨_, rfl⟩
    obtain ⟨rr, hR⟩ : ∃ x, (Rns.construct w n bl).value a % w = x := ⟨_, rfl⟩
    obtain ⟨dd, hD⟩ : ∃ x, binaryModulus bl - w = x := ⟨_, rfl⟩
    rw [hQ]
    rw [hQ, hR] at hkey
    rw [hR] at hrsum
    rw [hD] at hpsum hwd
    zify
    have hAz : (a0 : ℤ) + 2 ^ bl * (a1 + 2 ^ bl * (a2 + 2 ^ bl * a3))
        = ((Rns.construct w n bl).value a : ℤ) := by exact_mod_cast hva.symm
    have hpz : (p0 : ℤ) + 2 ^ bl * (p1 + 2 ^ bl * (p2 + 2 ^ bl * p3)) = (dd : ℤ) := by
      exact_mod_cast hpsum
    have hrz : (r0 : ℤ) + 2 ^ bl * (r1 + 2 ^ bl * (r2 + 2 ^ bl * r3)) = (rr : ℤ) := by
      exact_mod_cast hrsum
    have hkeyz : (w : ℤ) * (qq : ℤ) + (rr : ℤ) = ((Rns.construct w n bl).value a : ℤ) := by
      exact_mod_cast hkey
    have hwdz : (w : ℤ) + (dd : ℤ) = 2 ^ (bl * 4) := by exact_mod_cast hwd
    have hpow2z : (2 : ℤ) ^ (bl * 2) = 2 ^ bl * 2 ^ bl := by
      rw [show bl * 2 = bl + bl by ring, pow_add]
    have hpow4z : (2 : ℤ) ^ (bl * 4) = 2 ^ bl * 2 ^ bl * (2 ^ bl * 2 ^ bl) := by
      rw [show bl * 4 = bl + bl + (bl + bl) by ring, pow_add, pow_add]
    rw [hpow4z] at hwdz
    rw [hpow2z, hpow4z]
    linear_combination hAz + (qq : ℤ) * hpz - hrz - hkeyz + (qq : ℤ) * hwdz
  -- window size bound
  have hbound : ((a0 + p0 * ((Rns.construct w n bl).value a / w))
        + 2 ^ bl * (a1 + p1 * ((Rns.construct w n bl).value a / w)))
      + ((a2 + p2 * ((Rns.construct w n bl).value a / w))
        + 2 ^ bl * (a3 + p3 * ((Rns.construct w n bl).value a / w))) < n := by
    have hT0 : a0 + p0 * ((Rns.construct w n bl).value a / w)
        ≤ maxUnreducedLimb bl + 2 ^ bl * 2 ^ bl :=
      Nat.add_le_add hb0 (Nat.mul_le_mul (Nat.le_of_lt hp0) (Nat.le_of_lt hq))
    have hT1 : a1 + p1 * ((Rns.construct w n bl).value a / w)
        ≤ maxUnreducedLimb bl + 2 ^ bl * 2 ^ bl :=
      Nat.add_le_add hb1 (Nat.mul_le_mul (Nat.le_of_lt hp1) (Nat.le_of_lt hq))
    have hT2 : a2 + p2 * ((Rns.construct w n bl).value a / w)
        ≤ maxUnreducedLimb bl + 2 ^ bl * 2 ^ bl :=
      Nat.add_le_add hb2 (Nat.mul_le_mul (Nat.le_of_lt hp2) (Nat.le_of_lt hq))
    have hT3 : a3 + p3 * ((Rns.construct w n bl).value a / w)
        ≤ maxUnreducedLimb bl + 2 ^ bl * 2 ^ bl :=
      Nat.add_le_add hb3 (Nat.mul_le_mul (Nat.le_of_lt hp3) (Nat.le_of_lt hq))
    calc ((a0 + p0 * ((Rns.construct w n bl).value a / w))
          + 2 ^ bl * (a1 + p1 * ((Rns.construct w n bl).value a / w)))
        + ((a2 + p2 * ((Rns.construct w n bl).value a / w))
          + 2 ^ bl * (a3 + p3 * ((Rns.construct w n bl).value a / w)))
        ≤ ((maxUnreducedLimb bl + 2 ^ bl * 2 ^ bl)
            + 2 ^ bl * (maxUnreducedLimb bl + 2 ^ bl * 2 ^ bl))
          + ((maxUnreducedLimb bl + 2 ^ bl * 2 ^ bl)
            + 2 ^ bl * (maxUnreducedLimb bl + 2 ^ bl * 2 ^ bl)) :=
          Nat.add_le_add (Nat.add_le_add hT0 (Nat.mul_le_mul_left _ hT1))
            (Nat.add_le_add hT2 (Nat.mul_le_mul_left _ hT3))
      _ = (maxUnreducedLimb bl + 2 ^ bl * 2 ^ bl) * (2 + 2 * 2 ^ bl) := by ring
      _ < n := hredn
  exact residues_core n bl hn0 hodd _ _ _ _ r0 r1 r2 r3
    (a0 + p0 * ((Rns.construct w n bl).value a / w))
    (a1 + p1 * ((Rns.construct w n bl).value a / w))
    (a2 + p2 * ((Rns.construct w n bl).value a / w))
    (a3 + p3 * ((Rns.construct w n bl).value a / w))
    ((Rns.construct w n bl).value a / w) 0
    (hcast a0 p0) (hcast a1 p1) (hcast a2 p2) (hcast a3 p3)
    hr0 hr1 hr2 hr3 hident hbound

theorem prod_le_prod_of_lt {x y P : Nat} (hx : x < P) (hy : y < P) : x * y ≤ P * P :=
  Nat.mul_le_mul (Nat.le_of_lt hx) (Nat.le_of_lt hy)

/-- The sanity block of `residues` holds for every `mul` call on operands in
the `max_operand` range with reduced limbs. -/
theorem mul_residues_ok {w n bl : Nat} (hca : ConstructAsserts w n bl) (hbl : 0 < bl)
    (hodd : n % 2 = 1) (hn : 2 ^ bl ≤ n) (hw : 2 ≤ w)
    (hmuln : 8 * (2 ^ bl * 2 ^ bl) * (2 + 2 * 2 ^ bl) < n)
    (a b : Integer) (hlena : a.limbs.length = 4) (hlenb : b.limbs.length = 4)
    (hbnda : ∀ l ∈ a.limbs, l < 2 ^ bl) (hbndb : ∀ l ∈ b.limbs, l < 2 ^ bl)
    (hvalta : (Rns.construct w n bl).value a ≤ maxOperand w n bl)
    (hvaltb : (Rns.construct w n bl).value b ≤ maxOperand w n bl) :
    (Rns.construct w n bl).residuesAssert ((Rns.construct w n bl).mul a b).t
      ((Rns.construct w n bl).mul a b).result := by
  have hn0 : 0 < n := by omega
  have h1 : binaryModulus bl > w := hca.1
  have hwT : w < 2 ^ (bl * 4) := by rw [← binaryModulus_eq]; exact h1
  obtain ⟨a0, a1, a2, a3, hla⟩ := list_four_of_length hlena
  obtain ⟨b0, b1, b2, b3, hlb⟩ := list_four_of_length hlenb
  have ha0 : a0 < 2 ^ bl := hbnda a0 (by rw [hla]; simp)
  have ha1 : a1 < 2 ^ bl := hbnda a1 (by rw [hla]; simp)
  have ha2 : a2 < 2 ^ bl := hbnda a2 (by rw [hla]; simp)
  have ha3 : a3 < 2 ^ bl := hbnda a3 (by rw [hla]; simp)
  have hb0 : b0 < 2 ^ bl := hbndb b0 (by rw [hlb]; simp)
  have hb1 : b1 < 2 ^ bl := hbndb b1 (by rw [hlb]; simp)
  have hb2 : b2 < 2 ^ bl := hbndb b2 (by rw [hlb]; simp)
  have hb3 : b3 < 2 ^ bl := hbndb b3 (by rw [hlb]; simp)
  have hdlt : binaryModulus bl - w < 2 ^ (bl * 4) := by
    rw [binaryModulus_eq]
    have := Nat.two_pow_pos (bl * 4)
    omega
  obtain ⟨p0, p1, p2, p3, hpl, hp0, hp1, hp2, hp3, hpsum⟩ :=
    decompose_four_spec hn (binaryModulus bl - w) hdlt
  have hqlt : (Rns.construct w n bl).value a * (Rns.construct w n bl).value b / w
      < 2 ^ (bl * 4) := mul_quotient_lt hca hw (Nat.mul_le_mul hvalta hvaltb)
  obtain ⟨q0, q1, q2, q3, hql, hq0, hq1, hq2, hq3, hqsum⟩ :=
    decompose_four_spec hn ((Rns.construct w n bl).value a * (Rns.construct w n bl).value b / w)
      hqlt
  have hrlt : (Rns.construct w n bl).value a * (Rns.construct w n bl).value b % w
      < 2 ^ (bl * 4) := lt_trans (Nat.mod_lt _ (by omega)) hwT
  obtain ⟨r0, r1, r2, r3, hrl, hr0, hr1, hr2, hr3, hrsum⟩ :=
    decompose_four_spec hn ((Rns.construct w n bl).value a * (Rns.construct w n bl).value b % w)
      hrlt
  have hvaeq : (Rns.construct w n bl).value a = compose [a0, a1, a2, a3] bl := by
    unfold Rns.value
    rw [construct_bitLenLimb, hla]
  have hvbeq : (Rns.construct w n bl).value b = compose [b0, b1, b2, b3] bl := by
    unfold Rns.value
    rw [construct_bitLenLimb, hlb]
  rw [compose_four] at hvaeq hvbeq
  have hqlimbs : ((Rns.construct w n bl).newFromBig
      ((Rns.construct w n bl).value a * (Rns.construct w n bl).value b / w)).limbs
      = [q0, q1, q2, q3] := by
    rw [newFromBig_limbs, construct_nativeModulus, construct_bitLenLimb]
    rw [show numberOfLimbs = 4 from rfl]
    exact hql
  have hres : ((Rns.construct w n bl).mul a b).result.limbs = [r0, r1, r2, r3] := by
    rw [mul_result_eq, newFromBig_limbs, construct_nativeModulus, construct_wrongModulus,
      construct_bitLenLimb]
    rw [show numberOfLimbs = 4 from rfl]
    exact hrl
  unfold Rns.residuesAssert
  rw [residues_fst, residues_snd, construct_nativeModulus, construct_leftShifterR,
    construct_rightShifter2r, construct_twoLimbMask, twoLimbMask_eq]
  rw [Nat.and_pow_two_sub_one_eq_mod, Nat.and_pow_two_sub_one_eq_mod]
  simp only [Integer.limbValue, hres, getD_four_0, getD_four_1, getD_four_2, getD_four_3]
  rw [mul_t_eq, construct_wrongModulus]
  unfold Rns.mulT
  rw [construct_nativeModulus, construct_negativeWrongModulusDecomposed,
    show negativeWrongModulusDecomposed w n bl = decompose n (binaryModulus bl - w) 4 bl
      from rfl, hpl, show List.range numberOfLimbs = [0, 1, 2, 3] from rfl]
  simp only [Integer.limbValue, hla, hlb, hqlimbs, List.map_cons, List.map_nil,
    show List.range 1 = [0] from rfl, show List.range 2 = [0, 1] from rfl,
    show List.range 3 = [0, 1, 2] from rfl, show List.range 4 = [0, 1, 2, 3] from rfl,
    List.foldl_cons, List.foldl_nil]
  simp only [show (1 : Nat) - 0 = 1 from rfl, show (1 : Nat) - 1 = 0 from rfl,
    show (2 : Nat) - 0 = 2 from rfl, show (2 : Nat) - 1 = 1 from rfl,
    show (2 : Nat) - 2 = 0 from rfl, show (3 : Nat) - 0 = 3 from rfl,
    show (3 : Nat) - 1 = 2 from rfl, show (3 : Nat) - 2 = 1 from rfl,
    show (3 : Nat) - 3 = 0 from rfl, show (0 : Nat) - 0 = 0 from rfl,
    getD_four_0, getD_four_1, getD_four_2, getD_four_3]
  -- the identity at the integer level
  have hkey : w * ((Rns.construct w n bl).value a * (Rns.construct w n bl).value b / w)
      + (Rns.construct w n bl).value a * (Rns.construct w n bl).value b % w
      = (Rns.construct w n bl).value a * (Rns.construct w n bl).value b := Nat.div_add_mod _ _
  have hwd : w + (binaryModulus bl - w) = 2 ^ (bl * 4) := by
    rw [binaryModulus_eq]
    omega
  have hident : ((a0 * b0 + p0 * q0)
        + 2 ^ bl * ((a0 * b1 + p0 * q1) + (a1 * b0 + p1 * q0)))
      + 2 ^ (bl * 2) * (((a0 * b2 + p0 * q2) + ((a1 * b1 + p1 * q1) + (a2 * b0 + p2 * q0)))
        + 2 ^ bl * (((a0 * b3 + p0 * q3) + (a1 * b2 + p1 * q2))
          + ((a2 * b1 + p2 * q1) + (a3 * b0 + p3 * q0))))
      + 2 ^ (bl * 4) * ((a1 * b3 + p1 * q3) + ((a2 * b2 + p2 * q2) + (a3 * b1 + p3 * q1))
        + 2 ^ bl * ((a2 * b3 + p2 * q3) + (a3 * b2 + p3 * q2))
        + 2 ^ (bl * 2) * (a3 * b3 + p3 * q3))
      = (Rns.construct w n bl).value a * (Rns.construct w n bl).value b / w * 2 ^ (bl * 4)
        + ((r0 + 2 ^ bl * r1) + 2 ^ (bl * 2) * (r2 + 2 ^ bl * r3)) := by
    obtain ⟨qq, hQ⟩ : ∃ x, (Rns.construct w n bl).value a * (Rns.construct w n bl).value b / w
      = x := ⟨_, rfl⟩
    obtain ⟨rr, hR⟩ : ∃ x, (Rns.construct w n bl).value a * (Rns.construct w n bl).value b % w
      = x := ⟨_, rfl⟩
    obtain ⟨dd, hD⟩ : ∃ x, binaryModulus bl - w = x := ⟨_, rfl⟩
    rw [hQ]
    rw [hQ, hR] at hkey
    rw [hQ] at hqsum
    rw [hR] at hrsum
    rw [hD] at hpsum hwd
    zify
    have hAz : (a0 : ℤ) + 2 ^ bl * (a1 + 2 ^ bl * (a2 + 2 ^ bl * a3))
        = ((Rns.construct w n bl).value a : ℤ) := by exact_mod_cast hvaeq.symm
    have hBz : (b0 : ℤ) + 2 ^ bl * (b1 + 2 ^ bl * (b2 + 2 ^ bl * b3))
        = ((Rns.construct w n bl).value b : ℤ) := by exact_mod_cast hvbeq.symm
    have hpz : (p0 : ℤ) + 2 ^ bl * (p1 + 2 ^ bl * (p2 + 2 ^ bl * p3)) = (dd : ℤ) := by
      exact_mod_cast hpsum
    have hqz : (q0 : ℤ) + 2 ^ bl * (q1 + 2 ^ bl * (q2 + 2 ^ bl * q3)) = (qq : ℤ) := by
      exact_mod_cast hqsum
    have hrz : (r0 : ℤ) + 2 ^ bl * (r1 + 2 ^ bl * (r2 + 2 ^ bl * r3)) = (rr : ℤ) := by
      exact_mod_cast hrsum
    have hkeyz : (w : ℤ) * (qq : ℤ) + (rr : ℤ)
        = ((Rns.construct w n bl).value a : ℤ) * ((Rns.construct w n bl).value b : ℤ) := by
      exact_mod_cast hkey
    have hwdz : (w : ℤ) + (dd : ℤ) = 2 ^ (bl * 4) := by exact_mod_cast hwd
    have hpow2z : (2 : ℤ) ^ (bl * 2) = 2 ^ bl * 2 ^ bl := by
      rw [show bl * 2 = bl + bl by ring, pow_add]
    have hpow4z : (2 : ℤ) ^ (bl * 4) = 2 ^ bl * 2 ^ bl * (2 ^ bl * 2 ^ bl) := by
      rw [show bl * 4 = bl + bl + (bl + bl) by ring, pow_add, pow_add]
    rw [hpow4z] at hwdz
    rw [hpow2z, hpow4z]
    have key2 : ((a0 : ℤ) + 2 ^ bl * (a1 + 2 ^ bl * (a2 + 2 ^ bl * a3)))
          * ((b0 : ℤ) + 2 ^ bl * (b1 + 2 ^ bl * (b2 + 2 ^ bl * b3)))
        + ((p0 : ℤ) + 2 ^ bl * (p1 + 2 ^ bl * (p2 + 2 ^ bl * p3)))
          * ((q0 : ℤ) + 2 ^ bl * (q1 + 2 ^ bl * (q2 + 2 ^ bl * q3)))
        = (qq : ℤ) * (2 ^ bl * 2 ^ bl * (2 ^ bl * 2 ^ bl))
          + ((r0 : ℤ) + 2 ^ bl * (r1 + 2 ^ bl * (r2 + 2 ^ bl * r3))) := by
      rw [hAz, hBz, hpz, hqz, hrz]
      linear_combination (qq : ℤ) * hwdz - hkeyz
    linear_combination key2
  -- window size bound
  have hX8 : ∀ T : Nat, T ≤ 2 ^ bl * 2 ^ bl + 2 ^ bl * 2 ^ bl
      + (2 ^ bl * 2 ^ bl + 2 ^ bl * 2 ^ bl) + (2 ^ bl * 2 ^ bl + 2 ^ bl * 2 ^ bl
      + (2 ^ bl * 2 ^ bl + 2 ^ bl * 2 ^ bl)) → T ≤ 8 * (2 ^ bl * 2 ^ bl) := by
    intro T h
    calc T ≤ _ := h
      _ = 8 * (2 ^ bl * 2 ^ bl) := by ring
  have hT0 : (a0 * b0 + p0 * q0) ≤ 8 * (2 ^ bl * 2 ^ bl) := by
    refine hX8 _ ?_
    have h01 := Nat.add_le_add (prod_le_prod_of_lt ha0 hb0) (prod_le_prod_of_lt hp0 hq0)
    omega
  have hT1 : ((a0 * b1 + p0 * q1) + (a1 * b0 + p1 * q0)) ≤ 8 * (2 ^ bl * 2 ^ bl) := by
    refine hX8 _ ?_
    have h01 := Nat.add_le_add (prod_le_prod_of_lt ha0 hb1) (prod_le_prod_of_lt hp0 hq1)
    have h02 := Nat.add_le_add (prod_le_prod_of_lt ha1 hb0) (prod_le_prod_of_lt hp1 hq0)
    omega
  have hT2 : ((a0 * b2 + p0 * q2) + ((a1 * b1 + p1 * q1) + (a2 * b0 + p2 * q0)))
      ≤ 8 * (2 ^ bl * 2 ^ bl) := by
    refine hX8 _ ?_
    have h01 := Nat.add_le_add (prod_le_prod_of_lt ha0 hb2) (prod_le_prod_of_lt hp0 hq2)
    have h02 := Nat.add_le_add (prod_le_prod_of_lt ha1 hb1) (prod_le_prod_of_lt hp1 hq1)
    have h03 := Nat.add_le_add (prod_le_prod_of_lt ha2 hb0) (prod_le_prod_of_lt hp2 hq0)
    omega
  have hT3 : (((a0 * b3 + p0 * q3) + (a1 * b2 + p1 * q2))
      + ((a2 * b1 + p2 * q1) + (a3 * b0 + p3 * q0))) ≤ 8 * (2 ^ bl * 2 ^ bl) := by
    refine hX8 _ ?_
    have h01 := Nat.add_le_add (prod_le_prod_of_lt ha0 hb3) (prod_le_prod_of_lt hp0 hq3)
    have h02 := Nat.add_le_add (prod_le_prod_of_lt ha1 hb2) (prod_le_prod_of_lt hp1 hq2)
    have h03 := Nat.add_le_add (prod_le_prod_of_lt ha2 hb1) (prod_le_prod_of_lt hp2 hq1)
    have h04 := Nat.add_le_add (prod_le_prod_of_lt ha3 hb0) (prod_le_prod_of_lt hp3 hq0)
    omega
  have hbound : ((a0 * b0 + p0 * q0)
        + 2 ^ bl * ((a0 * b1 + p0 * q1) + (a1 * b0 + p1 * q0)))
      + (((a0 * b2 + p0 * q2) + ((a1 * b1 + p1 * q1) + (a2 * b0 + p2 * q0)))
        + 2 ^ bl * (((a0 * b3 + p0 * q3) + (a1 * b2 + p1 * q2))
          + ((a2 * b1 + p2 * q1) + (a3 * b0 + p3 * q0)))) < n := by
    calc ((a0 * b0 + p0 * q0)
          + 2 ^ bl * ((a0 * b1 + p0 * q1) + (a1 * b0 + p1 * q0)))
        + (((a0 * b2 + p0 * q2) + ((a1 * b1 + p1 * q1) + (a2 * b0 + p2 * q0)))
          + 2 ^ bl * (((a0 * b3 + p0 * q3) + (a1 * b2 + p1 * q2))
            + ((a2 * b1 + p2 * q1) + (a3 * b0 + p3 * q0))))
        ≤ (8 * (2 ^ bl * 2 ^ bl) + 2 ^ bl * (8 * (2 ^ bl * 2 ^ bl)))
          + (8 * (2 ^ bl * 2 ^ bl) + 2 ^ bl * (8 * (2 ^ bl * 2 ^ bl))) :=
          Nat.add_le_add (Nat.add_le_add hT0 (Nat.mul_le_mul_left _ hT1))
            (Nat.add_le_add hT2 (Nat.mul_le_mul_left _ hT3))
      _ = 8 * (2 ^ bl * 2 ^ bl) * (2 + 2 * 2 ^ bl) := by ring
      _ < n := hmuln
  refine residues_core n bl hn0 hodd _ _ _ _ r0 r1 r2 r3
    (a0 * b0 + p0 * q0)
    ((a0 * b1 + p0 * q1) + (a1 * b0 + p1 * q0))
    ((a0 * b2 + p0 * q2) + ((a1 * b1 + p1 * q1) + (a2 * b0 + p2 * q0)))
    (((a0 * b3 + p0 * q3) + (a1 * b2 + p1 * q2))
      + ((a2 * b1 + p2 * q1) + (a3 * b0 + p3 * q0)))
    ((Rns.construct w n bl).value a * (Rns.construct w n bl).value b / w)
    ((a1 * b3 + p1 * q3) + ((a2 * b2 + p2 * q2) + (a3 * b1 + p3 * q1))
      + 2 ^ bl * ((a2 * b3 + p2 * q3) + (a3 * b2 + p3 * q2))
      + 2 ^ (bl * 2) * (a3 * b3 + p3 * q3))
    ?_ ?_ ?_ ?_ hr0 hr1 hr2 hr3 hident hbound
  · simp only [natCast_nadd, natCast_nmul]
    push_cast
    ring
  · simp only [natCast_nadd, natCast_nmul]
    push_cast
    ring
  · simp only [natCast_nadd, natCast_nmul]
    push_cast
    ring
  · simp only [natCast_nadd, natCast_nmul]
    push_cast
    ring

/-- C5: in every invocation of `Rns::residues` arising from `Rns::reduce` (on
an integer with limbs at most `max_unreduced_limb`) or from `Rns::mul` (on
operands with reduced limbs and values at most `max_operand`), under a sound
configuration (the construction-time assertions, odd native modulus, limbs
fitting the native field, and the native modulus dominating the window sums),
the low `2*bit_len_limb` bits of `u_0` and of the carry-adjusted `u_1` are
exactly zero: the sanity assertions in `residues` never fail. -/
theorem claim_C5_residues_sanity {w n bl : Nat} (hca : ConstructAsserts w n bl)
    (hbl : 0 < bl) (hodd : n % 2 = 1) (hn : 2 ^ bl ≤ n) (hw : 2 ≤ w)
    (hredn : (maxUnreducedLimb bl + 2 ^ bl * 2 ^ bl) * (2 + 2 * 2 ^ bl) < n)
    (hmuln : 8 * (2 ^ bl * 2 ^ bl) * (2 + 2 * 2 ^ bl) < n) :
    (∀ a : Integer, a.limbs.length = 4 → (∀ l ∈ a.limbs, l ≤ maxUnreducedLimb bl) →
      (Rns.construct w n bl).residuesAssert ((Rns.construct w n bl).reduce a).t
        ((Rns.construct w n bl).reduce a).result) ∧
    (∀ a b : Integer, a.limbs.length = 4 → b.limbs.length = 4 →
      (∀ l ∈ a.limbs, l < 2 ^ bl) → (∀ l ∈ b.limbs, l < 2 ^ bl) →
      (Rns.construct w n bl).value a ≤ maxOperand w n bl →
      (Rns.construct w n bl).value b ≤ maxOperand w n bl →
      (Rns.construct w n bl).residuesAssert ((Rns.construct w n bl).mul a b).t
        ((Rns.construct w n bl).mul a b).result) :=
  ⟨fun a hl hb => reduce_residues_ok hca hbl hodd hn (by omega) hredn a hl hb,
   fun a b hla hlb hba hbb hva hvb =>
     mul_residues_ok hca hbl hodd hn hw hmuln a b hla hlb hba hbb hva hvb⟩

/-- Witness for C5: both parts at the concrete configuration, on a concrete
unreduced integer for `reduce` and concrete in-range operands for `mul`. -/
theorem claim_C5_witness :
    rnsW.residuesAssert (rnsW.reduce aW).t (rnsW.reduce aW).result ∧
    rnsW.residuesAssert (rnsW.mul bW cW).t (rnsW.mul bW cW).result :=
  ⟨(claim_C5_residues_sanity (by decide) (by decide) (by decide) (by decide) (by decide)
      (by decide) (by decide)).1 aW (by decide) (by decide),
   (claim_C5_residues_sanity (by decide) (by decide) (by decide) (by decide) (by decide)
      (by decide) (by decide)).2 bW cW (by decide) (by decide) (by decide) (by decide)
      (by decide) (by decide)⟩

end Halo2wrong
